import Mathlib

/-!
Verification development for the fenced-code-block decoration plugin
(fence-parameter parsing, content normalization, fence location, callout
extraction, live-editor decoration building, highlighter state).

The TypeScript sources are embedded shallowly: JavaScript strings are
modelled as `List Char` (with `String` wrappers at the API boundary),
JavaScript numbers as `Nat`/`Int`, records as Lean structures, and the
host-provided registries (icon manager, tokenizer) as explicit parameters.
Positions count characters (code points); the embedding is uniform in this
choice.  All definitions are computable and mirror the control flow of the
source functions.
-/

/-! ## JavaScript string primitives -/

/-- The character class recognised by JavaScript regex `\s` (WhiteSpace and
LineTerminator productions). -/
def isJsSpace (c : Char) : Bool :=
  c = ' ' || c = '\t' || c = '\n' || c.val = 11 || c.val = 12 || c = '\r' ||
  c.val = 0xa0 || c.val = 0x1680 || (0x2000 ≤ c.val && c.val ≤ 0x200a) ||
  c.val = 0x2028 || c.val = 0x2029 || c.val = 0x202f || c.val = 0x205f ||
  c.val = 0x3000 || c.val = 0xfeff

/-- The backtick character (code point 96). -/
def backtickChar : Char := Char.ofNat 96

/-- Split a character list at every occurrence of `sep`, mirroring
JavaScript `String.prototype.split` with a one-character separator: the
result is always non-empty, and an empty input yields `[[]]`. -/
def splitOnChar (sep : Char) : List Char → List (List Char)
  | [] => [[]]
  | c :: cs =>
    if c = sep then [] :: splitOnChar sep cs
    else
      match splitOnChar sep cs with
      | [] => [[c]]
      | h :: t => (c :: h) :: t

/-- Join character lists with a newline between consecutive elements,
mirroring JavaScript `Array.prototype.join("\n")`. -/
def joinNl : List (List Char) → List Char
  | [] => []
  | [l] => l
  | l :: l' :: ls => l ++ '\n' :: joinNl (l' :: ls)

/-- Replace every occurrence of the two-character sequence CR LF by LF,
scanning left to right without rescanning, as JavaScript
`.replace(/\r\n/g, "\n")` does. -/
def replaceCrLf : List Char → List Char
  | [] => []
  | [c] => [c]
  | c1 :: c2 :: rest =>
    if c1 = '\r' ∧ c2 = '\n' then '\n' :: replaceCrLf rest
    else c1 :: replaceCrLf (c2 :: rest)

/-- Whether the list contains the two-character sequence CR LF. -/
def hasCrLf : List Char → Bool
  | [] => false
  | [_] => false
  | c1 :: c2 :: rest => (c1 = '\r' && c2 = '\n') || hasCrLf (c2 :: rest)

/-- Remove the trailing run of JavaScript whitespace, mirroring
`.replace(/\s+$/g, "")`. -/
def rstrip (l : List Char) : List Char :=
  (l.reverse.dropWhile isJsSpace).reverse

/-- Remove the leading run of JavaScript whitespace, mirroring
`.replace(/^\s+/, "")`. -/
def lstrip (l : List Char) : List Char :=
  l.dropWhile isJsSpace

/-- JavaScript `String.prototype.trim` (strips `\s` on both ends). -/
def jsTrim (l : List Char) : List Char :=
  lstrip (rstrip l)

/-- ASCII lowercasing of a character list; models
`String.prototype.toLowerCase` (which coincides with it on the ASCII
alphabet handled by this plugin). -/
def jsToLower (l : List Char) : List Char :=
  l.map Char.toLower

/-- Drop the final element of a split-line list when it is empty,
mirroring `if (lines.length && lines[lines.length - 1] === "") lines.pop()`. -/
def dropLastEmptyLine (ls : List (List Char)) : List (List Char) :=
  match ls.getLast? with
  | some [] => ls.dropLast
  | _ => ls

/-! ## Content normalizer (`normalizeCodeContent`, `normalizeCodeContentLoose`) -/

/-- Core of `normalizeCodeContent` on character lists: unify CR LF to LF,
split on LF, drop one trailing empty line, right-trim each line, re-join. -/
def normalizeCodeContentL (l : List Char) : List Char :=
  joinNl (((dropLastEmptyLine (splitOnChar '\n' (replaceCrLf l)))).map rstrip)

/-- Embedding of `normalizeCodeContent(text?: string | null): string`
from `src/params.ts`. -/
def normalizeCodeContent (text : Option String) : String :=
  ⟨normalizeCodeContentL (text.getD ("")).data⟩

/-- Core of `normalizeCodeContentLoose` on character lists: normalize,
then additionally left-trim every line. -/
def normalizeCodeContentLooseL (l : List Char) : List Char :=
  joinNl ((splitOnChar '\n' (normalizeCodeContentL l)).map lstrip)

/-- Embedding of `normalizeCodeContentLoose(text?: string | null): string`
from `src/params.ts`. -/
def normalizeCodeContentLoose (text : Option String) : String :=
  ⟨normalizeCodeContentLooseL (text.getD ("")).data⟩

/-! ## Callout quote-marker stripping (`stripCalloutPrefix`) -/

/-- Strip the repeated quote groups `(?:>\s*)+` after they have been
entered: drop a leading marker and the whitespace after it, repeatedly.
Recursion is structural on a fuel argument so that the function reduces
inside the kernel; every round consumes at least the marker character, so
the list length bounds the rounds. -/
def stripQuoteGroupsFuel : Nat → List Char → List Char
  | 0, l => l
  | fuel + 1, l =>
    match l with
    | c :: rest =>
      if c = '>' then stripQuoteGroupsFuel fuel (rest.dropWhile isJsSpace) else c :: rest
    | [] => []

/-- Strip the repeated quote groups, fuelled by the input length. -/
def stripQuoteGroups (l : List Char) : List Char :=
  stripQuoteGroupsFuel l.length l

/-- Core of `stripCalloutPrefix` on character lists: JavaScript
`line.replace(/^\s*(?:>\s*)+/, "")` removes the leading whitespace and at
least one quote marker group when present, otherwise leaves the line
unchanged. -/
def stripQuoteLead (l : List Char) : List Char :=
  let afterWs := l.dropWhile isJsSpace
  if afterWs.head? = some '>' then stripQuoteGroups afterWs else l

/-- Embedding of `stripCalloutPrefix(line: string): string` from
`src/params.ts`. -/
def stripCalloutMarkers (line : String) : String :=
  ⟨stripQuoteLead line.data⟩

/-! ## Fence parameter parser (`parseCodeblockParameters`) -/

/-- Whether a character is a fence marker (backtick or tilde), the regex
class written as backtick-or-tilde in the source. -/
def isFenceMarkChar (c : Char) : Bool :=
  c = backtickChar || c = '~'

/-- Strip the leading fence marker and following whitespace, mirroring
`.replace(/^[\x60~]{3,}\s*/, "")`: the replacement happens only when the
leading marker run has length at least three. -/
def stripFenceMarker (l : List Char) : List Char :=
  let run := l.takeWhile isFenceMarkChar
  if 3 ≤ run.length then (l.dropWhile isFenceMarkChar).dropWhile isJsSpace else l

/-- The language character class `[a-zA-Z0-9+#-]` of the source. -/
def isLangChar (c : Char) : Bool :=
  c.isAlpha || c.isDigit || c = '+' || c = '#' || c = '-'

/-- A double or single quote, the regex class used by the title directive. -/
def isQuoteChar (c : Char) : Bool :=
  c.val = 34 || c.val = 39

/-- Case-insensitive literal prefix match (regex `/i` flag restricted to the
ASCII keys used by the directives); returns the remainder on success. -/
def ciKeyAt : List Char → List Char → Option (List Char)
  | [], l => some l
  | _ :: _, [] => none
  | p :: ps, c :: cs => if c.toLower = p.toLower then ciKeyAt ps cs else none

/-- Match the regex class `[:=]` and return the remainder. -/
def colonEqAt : List Char → Option (List Char)
  | c :: cs => if c = ':' || c = '=' then some cs else none
  | [] => none

/-- Try a position-anchored matcher at every position of the input, left to
right, returning the first success: the semantics of an unanchored
JavaScript regex search. -/
def searchFirst (f : List Char → Option α) : List Char → Option α
  | [] => f []
  | l@(_ :: rest) =>
    match f l with
    | some r => some r
    | none => searchFirst f rest

/-- The title directive matched at one position:
`title[:=]\s*["']([^"']+)["']|title[:=]\s*(\S+)` (alternative 1 tried
before alternative 2, both sharing the key, separator and greedy `\s*`). -/
def titleAt (l : List Char) : Option (List Char) :=
  match ciKeyAt ("title".data) l with
  | none => none
  | some r1 =>
    match colonEqAt r1 with
    | none => none
    | some r2 =>
      let s := r2.dropWhile isJsSpace
      let bare :=
        let tok := s.takeWhile (fun c => !isJsSpace c)
        if tok ≠ [] then some tok else none
      match s with
      | [] => bare
      | q :: rest =>
        if isQuoteChar q then
          let content := rest.takeWhile (fun c => !isQuoteChar c)
          let after := rest.drop content.length
          let closeOk := match after with | a :: _ => isQuoteChar a | [] => false
          if !content.isEmpty && closeOk then some content
          else bare
        else bare

/-- Hexadecimal digit class `[0-9a-fA-F]`. -/
def isHexDigitChar (c : Char) : Bool :=
  c.isDigit || ('a' ≤ c && c ≤ 'f') || ('A' ≤ c && c ≤ 'F')

/-- A color directive (`lang-color` or `title-color`) matched at one
position: `key[:=]\s*#?([0-9a-fA-F]{6})`; the captured group keeps the
case of the input. -/
def colorAt (key : List Char) (l : List Char) : Option (List Char) :=
  match ciKeyAt key l with
  | none => none
  | some r1 =>
    match colonEqAt r1 with
    | none => none
    | some r2 =>
      let s := r2.dropWhile isJsSpace
      let s2 := match s with
        | c :: cs => if c = '#' then cs else s
        | [] => s
      let six := s2.take 6
      if six.length = 6 ∧ six.all isHexDigitChar then some six else none

/-- Value of the `ln` directive group `(true|false|\d+)`. -/
inductive LnVal where
  | isTrue : LnVal
  | isFalse : LnVal
  | num : Int → LnVal
deriving DecidableEq

/-- Decimal value of a non-empty digit run (what `parseInt(digits, 10)`
returns on an all-digit string). -/
def digitsVal (ds : List Char) : Nat :=
  ds.foldl (fun a c => a * 10 + (c.toNat - ('0').toNat)) 0

/-- The `ln` directive matched at one position:
`ln[:=]\s*(true|false|\d+)` with `/i`; alternatives tried in order. -/
def lnAt (l : List Char) : Option LnVal :=
  match ciKeyAt ("ln".data) l with
  | none => none
  | some r1 =>
    match colonEqAt r1 with
    | none => none
    | some r2 =>
      let s := r2.dropWhile isJsSpace
      match ciKeyAt ("true".data) s with
      | some _ => some LnVal.isTrue
      | none =>
        match ciKeyAt ("false".data) s with
        | some _ => some LnVal.isFalse
        | none =>
          let ds := s.takeWhile Char.isDigit
          if ds ≠ [] then some (LnVal.num (digitsVal ds)) else none

/-- The value character class `[0-9,\-\s]` of the `hl` directive. -/
def isHlClassChar (c : Char) : Bool :=
  c.isDigit || c = ',' || c = '-' || isJsSpace c

/-- The `hl` directive matched at one position: `hl[:=]\s*([0-9,\-\s]+)`.
The greedy `\s*` backtracks by one character when the class needs it (the
class itself contains `\s`), so a match after whitespace with no class
character following captures a single whitespace character. -/
def hlAt (l : List Char) : Option (List Char) :=
  match ciKeyAt ("hl".data) l with
  | none => none
  | some r1 =>
    match colonEqAt r1 with
    | none => none
    | some r2 =>
      let w := r2.takeWhile isJsSpace
      let afterW := r2.drop w.length
      let g := afterW.takeWhile isHlClassChar
      if g ≠ [] then some g
      else
        match w.getLast? with
        | some c => some [c]
        | none => none

/-- JavaScript `parseInt(s, 10)`: skip leading whitespace, read an optional
sign and a decimal digit run; `none` models `NaN`. -/
def parseIntJs (l : List Char) : Option Int :=
  let s := l.dropWhile isJsSpace
  match s with
  | c :: rest =>
    if c = '-' then
      let ds := rest.takeWhile Char.isDigit
      if ds = [] then none else some (-(digitsVal ds : Int))
    else if c = '+' then
      let ds := rest.takeWhile Char.isDigit
      if ds = [] then none else some (digitsVal ds)
    else
      let ds := s.takeWhile Char.isDigit
      if ds = [] then none else some (digitsVal ds)
  | [] => none

/-- The expansion loop `for (let i = start; i <= end; i++) push(i)`:
ascending inclusive range, empty when `stop < start`. -/
def expandRange (start stop : Int) : List Int :=
  (List.range (stop + 1 - start).toNat).map (fun (k : Nat) => start + (k : Int))

/-- Expansion of one comma-separated `hl` entry: plain integer, or `a-b`
range via destructuring `const [start = NaN, end = NaN] = part.split("-")
.map(n => parseInt(n.trim(), 10))`; a missing or unparsable bound skips
the pair silently. -/
def expandHlPart (part : List Char) : List Int :=
  if part.contains '-' then
    let nums := (splitOnChar '-' part).map (fun p => parseIntJs (jsTrim p))
    match nums.get? 0, nums.get? 1 with
    | some (some a), some (some b) => expandRange a b
    | _, _ => []
  else
    match parseIntJs part with
    | some n => [n]
    | none => []

/-- Processing of the captured `hl` group: split on commas, trim, drop
empties, expand each entry in encounter order. -/
def parseHighlights (g : List Char) : List Int :=
  let parts := ((splitOnChar ',' g).map jsTrim).filter (fun p => p ≠ [])
  (parts.map expandHlPart).flatten

/-- `CodeblockLineNumbers` from `src/params.ts` (`enabled: boolean | null`). -/
structure CodeblockLineNumbers where
  enabled : Option Bool
  offset : Int
deriving DecidableEq

/-- `CodeblockParameters` from `src/params.ts`. -/
structure CodeblockParameters where
  language : String
  title : String
  langColor : String
  titleColor : String
  lineNumbers : CodeblockLineNumbers
  highlights : List Int
deriving DecidableEq

/-- The all-default parameter record built at the top of
`parseCodeblockParameters`. -/
def defaultCodeblockParameters : CodeblockParameters :=
  { language := ""
    title := ""
    langColor := ""
    titleColor := ""
    lineNumbers := { enabled := none, offset := 1 }
    highlights := [] }

/-- The trimmed remainder of the fence line on which all directive
searches run: fence marker stripped, then `trim()`. -/
def trimmedFenceRest (s : String) : List Char :=
  jsTrim (stripFenceMarker s.data)

/-- Embedding of `parseCodeblockParameters(fenceLine?: string | null)`
from `src/params.ts`.  Total by construction; each directive is an
independent unanchored regex search over the trimmed fence-line rest. -/
def parseCodeblockParameters (fenceLine : Option String) : CodeblockParameters :=
  match fenceLine with
  | none => defaultCodeblockParameters
  | some s =>
    if s = "" then defaultCodeblockParameters
    else
      let trimmed := trimmedFenceRest s
      if trimmed = [] then defaultCodeblockParameters
      else
        let langRun := trimmed.takeWhile isLangChar
        let language := if langRun ≠ [] then (⟨jsToLower langRun⟩ : String) else ""
        let title :=
          match searchFirst titleAt trimmed with
          | some t => (⟨t⟩ : String)
          | none => ""
        let langColor :=
          match searchFirst (colorAt ("lang-color".data)) trimmed with
          | some h => (⟨'#' :: h⟩ : String)
          | none => ""
        let titleColor :=
          match searchFirst (colorAt ("title-color".data)) trimmed with
          | some h => (⟨'#' :: h⟩ : String)
          | none => ""
        let lineNumbers :=
          match searchFirst lnAt trimmed with
          | some LnVal.isTrue => { enabled := some true, offset := 1 }
          | some LnVal.isFalse => { enabled := some false, offset := 1 }
          | some (LnVal.num n) => { enabled := some true, offset := n }
          | none => { enabled := none, offset := 1 }
        let highlights :=
          match searchFirst hlAt trimmed with
          | some g => parseHighlights g
          | none => []
        { language := language
          title := title
          langColor := langColor
          titleColor := titleColor
          lineNumbers := lineNumbers
          highlights := highlights }

/-! ## Language configuration (`resolveLanguageConfig`, `getIconForLanguage`) -/

/-- `CodeBlockLanguageConfig` from `src/languages.ts`.  `iconSize` has
TypeScript type `string | number | null`; only its string form is relevant
to the embedded functions, which never read it. -/
structure CodeBlockLanguageConfig where
  languageColor : Option String
  titleColor : Option String
  borderColor : Option String
  icon : Option String
  displayName : Option String
  aliases : Option (List String)
  color : Option String
  iconSize : Option String
deriving DecidableEq

/-- `CodeBlockLanguages = Record<string, CodeBlockLanguageConfig>`,
modelled as an insertion-ordered association list with distinct keys
(`Object.entries` iterates in insertion order). -/
def CodeBlockLanguages := List (String × CodeBlockLanguageConfig)

instance : DecidableEq CodeBlockLanguages :=
  inferInstanceAs (DecidableEq (List (String × CodeBlockLanguageConfig)))

/-- Embedding of `resolveLanguageConfig(language?, codeBlockLanguages?)`
from `src/languages.ts`: lowercase the language, look up the record key
directly, then scan entries for an alias hit. -/
def resolveLanguageConfig (language : Option String)
    (codeBlockLanguages : Option CodeBlockLanguages) :
    Option (String × CodeBlockLanguageConfig) :=
  match language, codeBlockLanguages with
  | some lg, some tbl =>
    if lg = "" then none
    else
      let lang : String := ⟨jsToLower lg.data⟩
      match tbl.find? (fun e => e.1 = lang) with
      | some e => some (lang, e.2)
      | none =>
        tbl.find? (fun e =>
          match e.2.aliases with
          | some as => as.contains lang
          | none => false)
  | _, _ => none

/-- `LanguageIcon` from `src/languages.ts`. -/
structure LanguageIcon where
  id : String
  dataUrl : String
  isColored : Option Bool
  backgroundSize : Option String
deriving DecidableEq

/-- Embedding of `getIconForLanguage(iconId?, icons?)` from
`src/languages.ts`. -/
def getIconForLanguage (iconId : Option String) (icons : Option (List LanguageIcon)) :
    Option LanguageIcon :=
  match iconId, icons with
  | some iid, some ics =>
    if iid = "" then none else ics.find? (fun i => i.id = iid)
  | _, _ => none

/-! ## Fence locator (`findFenceLineByLine`, `findFenceLineForCodeBlock`) -/

/-- Match of the fence-open regex (3-plus characters from the
backtick-tilde class at line start): returns the first marker character
when the leading marker run has length at least three. -/
def fenceOpenChar (l : List Char) : Option Char :=
  let run := l.takeWhile isFenceMarkChar
  if 3 ≤ run.length then run.head? else none

/-- Test of the dynamically built closing-fence regex (the fence character
repeated at least three times, then optional whitespace to the end). -/
def isClosingFence (fc : Char) (l : List Char) : Bool :=
  let run := l.takeWhile (fun c => c = fc)
  3 ≤ run.length && (l.drop run.length).all isJsSpace

/-- In-progress block of the line scanners in `src/params.ts`
(`fenceChar`, `fenceLine`, `contentLines` variables while `inBlock`). -/
structure FenceBlockState where
  fenceChar : Char
  fenceLine : List Char
  contentLines : List (List Char)
deriving DecidableEq

/-- The two-line signature: split on LF, trim each line, drop blanks, keep
the first two, re-join (computed identically for target and block). -/
def signatureOfL (s : List Char) : List Char :=
  joinNl ((((splitOnChar '\n' s).map jsTrim).filter (fun p => p ≠ [])).take 2)

/-- Embedding of `findFenceLineByLine(sectionText?, startLine?)` from
`src/params.ts`: scan upward from `min(startLine - 1, lastIndex)` for a
fence-open line, returning it quote-stripped. -/
def findFenceLineByLine (sectionText : Option String) (startLine : Option Int) :
    Option String :=
  match sectionText, startLine with
  | some sec, some sl =>
    if sec = "" ∨ sl = 0 then none
    else
      let lines := splitOnChar '\n' sec.data
      let index := min (sl - 1) ((lines.length : Int) - 1)
      if index < 0 then none
      else
        let upward := ((lines.take (index.toNat + 1)).reverse).find? (fun rawLine =>
          !rawLine.isEmpty && (fenceOpenChar (stripQuoteLead rawLine)).isSome)
        match upward with
        | some rawLine => some ⟨stripQuoteLead rawLine⟩
        | none => none
  | _, _ => none

/-- Loop body of `findFenceLineForCodeBlock`: single pass over the lines,
returning a fence line immediately on an exact (strict or loose)
normalized-content match with matching language, otherwise recording
signature candidates and deciding on uniqueness at the end. -/
def findFenceGo (target targetLoose targetSig : List Char)
    (langOk : List Char → Bool) :
    List (List Char) → Option FenceBlockState → List (List Char) → Option (List Char)
  | [], _, candidates => if candidates.length = 1 then candidates.head? else none
  | line :: rest, st, candidates =>
    let strippedLine := stripQuoteLead line
    match st with
    | none =>
      match fenceOpenChar strippedLine with
      | some fc =>
        findFenceGo target targetLoose targetSig langOk rest
          (some ⟨fc, strippedLine, []⟩) candidates
      | none => findFenceGo target targetLoose targetSig langOk rest none candidates
    | some b =>
      if isClosingFence b.fenceChar strippedLine then
        let blockContent := normalizeCodeContentL (joinNl b.contentLines)
        let blockLoose := normalizeCodeContentLooseL (joinNl b.contentLines)
        if (blockContent = target || blockLoose = targetLoose) && langOk b.fenceLine then
          some b.fenceLine
        else
          let candidates' :=
            if targetSig ≠ [] then
              let blockSignature := signatureOfL blockContent
              if (!blockSignature.isEmpty) && blockSignature = targetSig &&
                  langOk b.fenceLine then
                candidates ++ [b.fenceLine]
              else candidates
            else candidates
          findFenceGo target targetLoose targetSig langOk rest none candidates'
      else
        findFenceGo target targetLoose targetSig langOk rest
          (some { b with contentLines := b.contentLines ++ [strippedLine] }) candidates

/-- The language-match rule of `findFenceLineForCodeBlock`: no filter
matches everything; otherwise the fence's parsed language must equal the
filter, or both must resolve to configs with the same canonical name. -/
def languageMatches (language : Option String)
    (codeBlockLanguages : Option CodeBlockLanguages) (fenceLineText : List Char) : Bool :=
  let fenceLang := (parseCodeblockParameters (some ⟨fenceLineText⟩)).language
  match language with
  | none => true
  | some lg =>
    if lg = "" then true
    else if fenceLang = lg then true
    else
      match codeBlockLanguages with
      | some tbl =>
        match resolveLanguageConfig (some lg) (some tbl),
              resolveLanguageConfig (some fenceLang) (some tbl) with
        | some targetConfig, some fenceConfig => targetConfig.1 = fenceConfig.1
        | _, _ => false
      | none => false

/-- Embedding of `findFenceLineForCodeBlock(sectionText?, codeText?,
language?, codeBlockLanguages?)` from `src/params.ts`. -/
def findFenceLineForCodeBlock (sectionText codeText language : Option String)
    (codeBlockLanguages : Option CodeBlockLanguages) : Option String :=
  match sectionText with
  | none => none
  | some sec =>
    if sec = "" then none
    else
      let target := (normalizeCodeContent codeText).data
      let targetLoose := (normalizeCodeContentLoose codeText).data
      if target = [] then none
      else
        let targetSignature := signatureOfL target
        let lines := splitOnChar '\n' sec.data
        (findFenceGo target targetLoose targetSignature
            (languageMatches language codeBlockLanguages) lines none []).map
          (fun l => (⟨l⟩ : String))

/-! ## Specification-side fence locator

The spec describes the locator as: collect the closed blocks of the scan;
an exact (normalized or loose-normalized, language-matching) content match
on the first such block wins outright; otherwise return the unique
recorded signature candidate, and null at zero or several. -/

/-- All closed blocks of the quote-stripped fence scan, in document order,
as (fence line, joined raw content) pairs. -/
def closedBlocksGo : List (List Char) → Option FenceBlockState → List (List Char × List Char)
  | [], _ => []
  | line :: rest, st =>
    let strippedLine := stripQuoteLead line
    match st with
    | none =>
      match fenceOpenChar strippedLine with
      | some fc => closedBlocksGo rest (some ⟨fc, strippedLine, []⟩)
      | none => closedBlocksGo rest none
    | some b =>
      if isClosingFence b.fenceChar strippedLine then
        (b.fenceLine, joinNl b.contentLines) :: closedBlocksGo rest none
      else
        closedBlocksGo rest (some { b with contentLines := b.contentLines ++ [strippedLine] })

/-- Whether a closed block is an exact match for the target: its
normalized or loose-normalized content equals the target's and its
language matches. -/
def isExactBlock (target targetLoose : List Char) (langOk : List Char → Bool)
    (blk : List Char × List Char) : Bool :=
  (normalizeCodeContentL blk.2 = target || normalizeCodeContentLooseL blk.2 = targetLoose) &&
    langOk blk.1

/-- The signature candidate recorded for a closed block, when the target
signature is non-empty, the block's non-empty signature equals it and the
language matches. -/
def sigCandidate (targetSig : List Char) (langOk : List Char → Bool)
    (blk : List Char × List Char) : Option (List Char) :=
  if targetSig ≠ [] then
    let blockSignature := signatureOfL (normalizeCodeContentL blk.2)
    if (!blockSignature.isEmpty) && blockSignature = targetSig && langOk blk.1 then
      some blk.1
    else none
  else none

/-- Specification-side locator core over an explicit block list and an
initial candidate list: first exact match wins, else unique candidate. -/
def specFindFenceAux (target targetLoose targetSig : List Char)
    (langOk : List Char → Bool) (bs : List (List Char × List Char))
    (cands : List (List Char)) : Option (List Char) :=
  match bs.find? (isExactBlock target targetLoose langOk) with
  | some blk => some blk.1
  | none =>
    let cs := cands ++ bs.filterMap (sigCandidate targetSig langOk)
    if cs.length = 1 then cs.head? else none

/-- Specification-side locator core: first exact match among the closed
blocks, else the unique signature candidate, else null. -/
def specFindFence (target targetLoose targetSig : List Char)
    (langOk : List Char → Bool) (lines : List (List Char)) : Option (List Char) :=
  let bs := closedBlocksGo lines none
  match bs.find? (isExactBlock target targetLoose langOk) with
  | some blk => some blk.1
  | none =>
    let cs := bs.filterMap (sigCandidate targetSig langOk)
    if cs.length = 1 then cs.head? else none

/-- Specification-side `findFenceLineForCodeBlock` (same guards, scan
described as collect-then-decide). -/
def specFindFenceLineForCodeBlock (sectionText codeText language : Option String)
    (codeBlockLanguages : Option CodeBlockLanguages) : Option String :=
  match sectionText with
  | none => none
  | some sec =>
    if sec = "" then none
    else
      let target := (normalizeCodeContent codeText).data
      let targetLoose := (normalizeCodeContentLoose codeText).data
      if target = [] then none
      else
        let targetSignature := signatureOfL target
        let lines := splitOnChar '\n' sec.data
        (specFindFence target targetLoose targetSignature
            (languageMatches language codeBlockLanguages) lines).map
          (fun l => (⟨l⟩ : String))

/-! ## Callout fence extraction (`extractCalloutFenceEntries`) -/

/-- Whether a line belongs to a callout, the test `/^\s*>/.test(line)`. -/
def isCalloutLine (l : List Char) : Bool :=
  (l.dropWhile isJsSpace).head? = some '>'

/-- `CalloutFenceEntry` from `src/params.ts`. -/
structure CalloutFenceEntry where
  fenceLine : String
  content : String
deriving DecidableEq

/-- Loop body of `extractCalloutFenceEntries`: any non-quote line resets
the automaton without emitting; within quote lines, the quote-stripped
automaton opens on a fence line, closes on a same-character closing fence
(emitting the normalized content), and otherwise accumulates content. -/
def extractCalloutGo : List (List Char) → Option FenceBlockState → List (List Char × List Char)
  | [], _ => []
  | line :: rest, st =>
    if !isCalloutLine line then extractCalloutGo rest none
    else
      let strippedLine := stripQuoteLead line
      match st with
      | none =>
        match fenceOpenChar strippedLine with
        | some fc => extractCalloutGo rest (some ⟨fc, strippedLine, []⟩)
        | none => extractCalloutGo rest none
      | some b =>
        if isClosingFence b.fenceChar strippedLine then
          (b.fenceLine, normalizeCodeContentL (joinNl b.contentLines)) ::
            extractCalloutGo rest none
        else
          extractCalloutGo rest (some { b with contentLines := b.contentLines ++ [strippedLine] })

/-- Embedding of `extractCalloutFenceEntries(text?: string | null)` from
`src/params.ts`. -/
def extractCalloutFenceEntries (text : Option String) : List CalloutFenceEntry :=
  match text with
  | none => []
  | some s =>
    if s = "" then []
    else
      (extractCalloutGo (splitOnChar '\n' s.data) none).map
        (fun e => { fenceLine := (⟨e.1⟩ : String), content := (⟨e.2⟩ : String) })

/-! ## Specification-side callout extraction

The spec describes the extractor per contiguous run of quote-prefixed
lines: quote markers are stripped from the whole run, a plain fence
scanner (open / same-character close / accumulate) extracts the closed
blocks of the run, an unterminated block is dropped at the run boundary,
and runs contribute in document order. -/

/-- The maximal runs of consecutive quote-prefixed lines, in document
order (non-quote lines separate and are discarded). -/
def quoteRuns : List (List Char) → List (List (List Char))
  | [] => []
  | l :: rest =>
    if isCalloutLine l then
      (l :: rest.takeWhile isCalloutLine) :: quoteRuns (rest.dropWhile isCalloutLine)
    else quoteRuns rest
  termination_by ls => ls.length
  decreasing_by
    · simp only [List.length_cons]
      exact Nat.lt_succ_of_le (List.Sublist.length_le (List.dropWhile_sublist _))
    · simp

/-- Plain fence scanner over already-stripped lines: open on a fence
line, close on a same-character closing fence emitting the normalized
content, accumulate otherwise; an open block left at the end is dropped. -/
def plainFenceScan : List (List Char) → Option FenceBlockState → List (List Char × List Char)
  | [], _ => []
  | line :: rest, st =>
    match st with
    | none =>
      match fenceOpenChar line with
      | some fc => plainFenceScan rest (some ⟨fc, line, []⟩)
      | none => plainFenceScan rest none
    | some b =>
      if isClosingFence b.fenceChar line then
        (b.fenceLine, normalizeCodeContentL (joinNl b.contentLines)) ::
          plainFenceScan rest none
      else
        plainFenceScan rest (some { b with contentLines := b.contentLines ++ [line] })

/-- The entries contributed by one quote run: strip the quote markers from
every line of the run, then run the plain fence scanner. -/
def runEntries (run : List (List Char)) : List (List Char × List Char) :=
  plainFenceScan (run.map stripQuoteLead) none

/-- Specification-side `extractCalloutFenceEntries`: concatenate, in
document order, the entries of every maximal quote run. -/
def specExtractCalloutFenceEntries (text : Option String) : List CalloutFenceEntry :=
  match text with
  | none => []
  | some s =>
    if s = "" then []
    else
      (((quoteRuns (splitOnChar '\n' s.data)).map runEntries).flatten).map
        (fun e => { fenceLine := (⟨e.1⟩ : String), content := (⟨e.2⟩ : String) })

/-! ## Highlighter types and themes (`highlighter/types.ts`, `highlighter/themes.ts`) -/

/-- `HighlighterTheme`, the five theme identifiers. -/
inductive HighlighterTheme where
  | monokaiPro : HighlighterTheme
  | githubDark : HighlighterTheme
  | githubLight : HighlighterTheme
  | dracula : HighlighterTheme
  | nord : HighlighterTheme
deriving DecidableEq

/-- `HighlighterSettings` from `highlighter/types.ts`. -/
structure HighlighterSettings where
  enabled : Bool
  autoDetect : Bool
  theme : HighlighterTheme
deriving DecidableEq

/-- `DEFAULT_HIGHLIGHTER_SETTINGS` from `highlighter/types.ts`. -/
def DEFAULT_HIGHLIGHTER_SETTINGS : HighlighterSettings :=
  { enabled := false, autoDetect := false, theme := HighlighterTheme.monokaiPro }

/-- `ThemeColors` from `highlighter/themes.ts`.  Source field names
`string`, `function`, `variable`, `type` and `params` are Lean keywords or
shadow-prone, so they carry a `Color` suffix here. -/
structure ThemeColors where
  background : String
  foreground : String
  keyword : String
  stringColor : String
  comment : String
  functionColor : String
  variableColor : String
  typeColor : String
  number : String
  operator : String
  attributeColor : String
  className : String
  paramsColor : String
deriving DecidableEq

/-- `THEME_COLORS` from `highlighter/themes.ts` (total over the five theme
identifiers, so the monokai fallback of `getThemeColors` is unreachable). -/
def THEME_COLORS : HighlighterTheme → ThemeColors
  | HighlighterTheme.monokaiPro =>
    { background := "#2d2a2e", foreground := "#c1c0c0", keyword := "#ff6188"
      stringColor := "#a9dc76", comment := "#727072", functionColor := "#a9dc76"
      variableColor := "#a9dc76", typeColor := "#a9dc76", number := "#ff6188"
      operator := "#ff6188", attributeColor := "#ab9df2", className := "#fcfcfa"
      paramsColor := "#c1c0c0" }
  | HighlighterTheme.githubDark =>
    { background := "#0d1117", foreground := "#c9d1d9", keyword := "#ff7b72"
      stringColor := "#a5d6ff", comment := "#8b949e", functionColor := "#d2a8ff"
      variableColor := "#ffa657", typeColor := "#79c0ff", number := "#79c0ff"
      operator := "#ff7b72", attributeColor := "#79c0ff", className := "#ffa657"
      paramsColor := "#c9d1d9" }
  | HighlighterTheme.githubLight =>
    { background := "#ffffff", foreground := "#24292f", keyword := "#cf222e"
      stringColor := "#0a3069", comment := "#6e7781", functionColor := "#8250df"
      variableColor := "#953800", typeColor := "#0550ae", number := "#0550ae"
      operator := "#cf222e", attributeColor := "#0550ae", className := "#953800"
      paramsColor := "#24292f" }
  | HighlighterTheme.dracula =>
    { background := "#282a36", foreground := "#f8f8f2", keyword := "#ff79c6"
      stringColor := "#f1fa8c", comment := "#6272a4", functionColor := "#50fa7b"
      variableColor := "#f8f8f2", typeColor := "#8be9fd", number := "#bd93f9"
      operator := "#ff79c6", attributeColor := "#50fa7b", className := "#8be9fd"
      paramsColor := "#f8f8f2" }
  | HighlighterTheme.nord =>
    { background := "#2e3440", foreground := "#d8dee9", keyword := "#81a1c1"
      stringColor := "#a3be8c", comment := "#616e88", functionColor := "#88c0d0"
      variableColor := "#d8dee9", typeColor := "#8fbcbb", number := "#b48ead"
      operator := "#81a1c1", attributeColor := "#8fbcbb", className := "#8fbcbb"
      paramsColor := "#d8dee9" }

/-- `getThemeColors` from `highlighter/themes.ts`. -/
def getThemeColors (theme : HighlighterTheme) : ThemeColors :=
  THEME_COLORS theme

/-- `TokenStyle` from `highlighter/themes.ts` (`bold?`, `italic?` are
optional booleans). -/
structure TokenStyle where
  color : String
  bold : Option Bool := none
  italic : Option Bool := none
deriving DecidableEq

/-- `getStyleMap(theme)` from `highlighter/themes.ts`: the record mapping
token class names to styles, as an association list in source order. -/
def getStyleMap (theme : HighlighterTheme) : List (String × TokenStyle) :=
  let colors := getThemeColors theme
  [ ("hljs-keyword", { color := colors.keyword, bold := some true })
  , ("hljs-tag", { color := colors.keyword })
  , ("hljs-selector-tag", { color := colors.keyword, bold := some true })
  , ("hljs-literal", { color := colors.keyword, bold := some true })
  , ("hljs-number", { color := colors.number })
  , ("hljs-name", { color := colors.keyword })
  , ("hljs-strong", { color := colors.keyword, bold := some true })
  , ("hljs-code", { color := colors.typeColor })
  , ("hljs-attribute", { color := colors.attributeColor })
  , ("hljs-attr", { color := colors.attributeColor })
  , ("hljs-symbol", { color := colors.attributeColor })
  , ("hljs-regexp", { color := colors.attributeColor })
  , ("hljs-link", { color := colors.attributeColor })
  , ("hljs-string", { color := colors.stringColor })
  , ("hljs-bullet", { color := colors.stringColor })
  , ("hljs-subst", { color := colors.stringColor })
  , ("hljs-title", { color := colors.stringColor, bold := some true })
  , ("hljs-section", { color := colors.stringColor, bold := some true })
  , ("hljs-emphasis", { color := colors.stringColor, italic := some true })
  , ("hljs-type", { color := colors.typeColor, bold := some true })
  , ("hljs-built_in", { color := colors.stringColor })
  , ("hljs-selector-attr", { color := colors.stringColor })
  , ("hljs-selector-pseudo", { color := colors.stringColor })
  , ("hljs-addition", { color := colors.stringColor })
  , ("hljs-variable", { color := colors.variableColor })
  , ("hljs-template-tag", { color := colors.stringColor })
  , ("hljs-template-variable", { color := colors.stringColor })
  , ("hljs-function", { color := colors.functionColor })
  , ("hljs-comment", { color := colors.comment })
  , ("hljs-quote", { color := colors.comment })
  , ("hljs-deletion", { color := colors.comment })
  , ("hljs-meta", { color := colors.comment })
  , ("hljs-doctag", { color := colors.keyword, bold := some true })
  , ("hljs-selector-id", { color := colors.keyword, bold := some true })
  , ("hljs-params", { color := colors.paramsColor }) ]

/-- `getCombinedOverrides(theme)` from `highlighter/themes.ts`: ordered
required-class-set overrides, evaluated before the single-class map. -/
def getCombinedOverrides (theme : HighlighterTheme) :
    List (List String × TokenStyle) :=
  let colors := getThemeColors theme
  [ (["hljs-title", "class_"], { color := colors.className }) ]

/-! ## Highlighter state (`highlighter/state.ts`) -/

/-- The `HighlighterState` class state from `highlighter/state.ts`.
Subscribed listener and reload callbacks are opaque functions in the
source; they are modelled by opaque identifiers, and each mutating
operation reports the identifiers it synchronously notified. -/
structure HighlighterStateModel where
  active : Bool
  settings : HighlighterSettings
  styleMap : List (String × TokenStyle)
  combinedOverrides : List (List String × TokenStyle)
  listeners : List Nat
  reloadCallbacks : List Nat
deriving DecidableEq

/-- The `HighlighterState` constructor. -/
def mkHighlighterState (settings : HighlighterSettings) : HighlighterStateModel :=
  { active := false
    settings := settings
    styleMap := getStyleMap settings.theme
    combinedOverrides := getCombinedOverrides settings.theme
    listeners := []
    reloadCallbacks := [] }

/-- The `foregroundColor` getter of `HighlighterState` (per-theme record
lookup with monokai fallback). -/
def foregroundColor (s : HighlighterStateModel) : String :=
  match s.settings.theme with
  | HighlighterTheme.monokaiPro => "#c1c0c0"
  | HighlighterTheme.githubDark => "#c9d1d9"
  | HighlighterTheme.githubLight => "#24292f"
  | HighlighterTheme.dracula => "#f8f8f2"
  | HighlighterTheme.nord => "#d8dee9"

/-- `HighlighterState.start()`: set active and notify listeners; the
second component lists the synchronously notified listeners. -/
def hsStart (s : HighlighterStateModel) : HighlighterStateModel × List Nat :=
  ({ s with active := true }, s.listeners)

/-- `HighlighterState.stop()`: clear active and notify listeners. -/
def hsStop (s : HighlighterStateModel) : HighlighterStateModel × List Nat :=
  ({ s with active := false }, s.listeners)

/-- `Partial<HighlighterSettings>`: each field optionally present. -/
structure HighlighterSettingsPatch where
  enabled : Option Bool := none
  autoDetect : Option Bool := none
  theme : Option HighlighterTheme := none
deriving DecidableEq

/-- The spread `{ ...this._settings, ...newSettings }`. -/
def mergeSettings (old : HighlighterSettings) (p : HighlighterSettingsPatch) :
    HighlighterSettings :=
  { enabled := p.enabled.getD old.enabled
    autoDetect := p.autoDetect.getD old.autoDetect
    theme := p.theme.getD old.theme }

/-- `HighlighterState.updateSettings(newSettings)`: merge the patch,
recompute the style tables only when a theme is present in the patch and
differs from the current one, then notify listeners. -/
def hsUpdateSettings (p : HighlighterSettingsPatch) (s : HighlighterStateModel) :
    HighlighterStateModel × List Nat :=
  let themeChanged :=
    match p.theme with
    | some t => t != s.settings.theme
    | none => false
  let merged := mergeSettings s.settings p
  ({ s with
      settings := merged
      styleMap := if themeChanged then getStyleMap merged.theme else s.styleMap
      combinedOverrides :=
        if themeChanged then getCombinedOverrides merged.theme else s.combinedOverrides },
    s.listeners)

/-- `HighlighterState.reload()`: always recompute the style tables, notify
listeners, then fire the reload callbacks (second and third components). -/
def hsReload (s : HighlighterStateModel) :
    HighlighterStateModel × List Nat × List Nat :=
  ({ s with
      styleMap := getStyleMap s.settings.theme
      combinedOverrides := getCombinedOverrides s.settings.theme },
    s.listeners, s.reloadCallbacks)

/-! ## Live-editor highlighter extension (`highlighter/editor-extension.ts`) -/

/-- A tokenizer token `{offset, length, classes}` (the tokenizer itself is
an external collaborator; `buildDecorations` receives it as a function). -/
structure Token where
  offset : Nat
  length : Nat
  classes : List String
deriving DecidableEq

/-- A CodeMirror mark decoration produced by `buildDecorations`: a range
and the inline style attribute attached to it. -/
structure HLMark where
  mFrom : Nat
  mTo : Nat
  style : String
deriving DecidableEq

/-- Embedding of `resolveStyle(classes, styleMap, combinedOverrides)`:
first combined override whose required classes are all present wins,
otherwise the first class with a style-map entry; the style is rendered
to a CSS string. -/
def resolveStyle (classes : List String) (styleMap : List (String × TokenStyle))
    (combinedOverrides : List (List String × TokenStyle)) : Option String :=
  let fromOverride :=
    (combinedOverrides.find? (fun ov => ov.1.all (fun m => classes.contains m))).map
      (fun ov => ov.2)
  let resolved :=
    match fromOverride with
    | some st => some st
    | none =>
      classes.findSome? (fun c =>
        (styleMap.find? (fun (e : String × TokenStyle) => e.1 = c)).map
          (fun (e : String × TokenStyle) => e.2))
  match resolved with
  | none => none
  | some r =>
    some (("color: " ++ r.color) ++
      (if r.bold = some true then "; font-weight: bold" else "") ++
      (if r.italic = some true then "; font-style: italic" else ""))

/-- A code block found by `findCodeBlocks`: optional language and the
content character range `[contentFrom, contentTo]`. -/
structure HLCodeBlock where
  language : Option String
  contentFrom : Nat
  contentTo : Nat
deriving DecidableEq

/-- Match of the fence-open regex of `findCodeBlocks`
(homogeneous runs: 3-plus backticks or 3-plus tildes, then `\s*(\S*)`):
fence character, fence run length, optional language word. -/
def hlFenceOpen (l : List Char) : Option (Char × Nat × Option String) :=
  let btRun := l.takeWhile (fun c => c = backtickChar)
  if 3 ≤ btRun.length then
    let rest := l.drop btRun.length
    let lang := (rest.dropWhile isJsSpace).takeWhile (fun c => !isJsSpace c)
    some (backtickChar, btRun.length, if lang = [] then none else some (⟨lang⟩ : String))
  else
    let tdRun := l.takeWhile (fun c => c = '~')
    if 3 ≤ tdRun.length then
      let rest := l.drop tdRun.length
      let lang := (rest.dropWhile isJsSpace).takeWhile (fun c => !isJsSpace c)
      some ('~', tdRun.length, if lang = [] then none else some (⟨lang⟩ : String))
    else none

/-- Test of the closing regex of `findCodeBlocks` (the fence character
repeated at least `fenceLen` times, then optional whitespace to the end). -/
def hlIsClosing (fc : Char) (fenceLen : Nat) (l : List Char) : Bool :=
  let run := l.takeWhile (fun c => c = fc)
  fenceLen ≤ run.length && (l.drop run.length).all isJsSpace

/-- In-progress state of `findCodeBlocks` while inside a block. -/
structure HLScanState where
  fenceChar : Char
  fenceLen : Nat
  language : Option String
  contentFrom : Nat
deriving DecidableEq

/-- Loop body of `findCodeBlocks`: the first argument is the remaining
lines, the second the character offset of the current line start
(`line.from`); `line.to = pos + line.length` and the next line starts at
`line.to + 1`. -/
def findCodeBlocksGo : List String → Nat → Option HLScanState → List HLCodeBlock
  | [], _, _ => []
  | line :: rest, pos, st =>
    let lineTo := pos + line.data.length
    match st with
    | none =>
      match hlFenceOpen line.data with
      | some (fc, flen, lang) =>
        findCodeBlocksGo rest (lineTo + 1)
          (some { fenceChar := fc, fenceLen := flen, language := lang, contentFrom := lineTo + 1 })
      | none => findCodeBlocksGo rest (lineTo + 1) none
    | some s =>
      if hlIsClosing s.fenceChar s.fenceLen line.data then
        let contentTo := pos - 1
        (if s.contentFrom ≤ contentTo then
          [{ language := s.language, contentFrom := s.contentFrom, contentTo := contentTo }]
        else []) ++ findCodeBlocksGo rest (lineTo + 1) none
      else findCodeBlocksGo rest (lineTo + 1) (some s)

/-- Embedding of `findCodeBlocks(view)` from
`highlighter/editor-extension.ts`, over the document's lines. -/
def findCodeBlocks (docLines : List String) : List HLCodeBlock :=
  findCodeBlocksGo docLines 0 none

/-- The document text reconstructed from its lines (lines joined by LF). -/
def docText (docLines : List String) : List Char :=
  joinNl (docLines.map String.data)

/-- `state.sliceDoc(from, to)`: the characters in `[from, to)`. -/
def sliceDoc (docLines : List String) (a b : Nat) : String :=
  ⟨((docText docLines).drop a).take (b - a)⟩

/-- Whether a block's content range intersects one visible viewport range
(the test `block.contentFrom <= range.to && block.contentTo >= range.from`). -/
def blockVisible (visibleRanges : List (Nat × Nat)) (b : HLCodeBlock) : Bool :=
  visibleRanges.any (fun r => b.contentFrom ≤ r.2 && r.1 ≤ b.contentTo)

/-- The mark decorations contributed by one block in `buildDecorations`:
nothing without a language unless auto-detect is on, nothing when the
block intersects no visible range, nothing for an empty slice; otherwise
a foreground mark over the whole content range followed by one mark per
in-range token with a resolvable style. -/
def blockMarks (settings : HighlighterSettings) (styleMap : List (String × TokenStyle))
    (combinedOverrides : List (List String × TokenStyle)) (fg : String)
    (tokenize : String → Option String → Bool → List Token)
    (docLines : List String) (visibleRanges : List (Nat × Nat))
    (block : HLCodeBlock) : List HLMark :=
  if block.language = none && !settings.autoDetect then []
  else if !blockVisible visibleRanges block then []
  else
    let code := sliceDoc docLines block.contentFrom block.contentTo
    if code = "" then []
    else
      let fgMark : HLMark :=
        { mFrom := block.contentFrom, mTo := block.contentTo, style := "color: " ++ fg }
      let tokens := tokenize code block.language settings.autoDetect
      fgMark :: tokens.filterMap (fun token =>
        let tokenFrom := block.contentFrom + token.offset
        let tokenTo := tokenFrom + token.length
        if tokenTo ≤ tokenFrom then none
        else if block.contentTo < tokenTo then none
        else
          (resolveStyle token.classes styleMap combinedOverrides).map
            (fun style => { mFrom := tokenFrom, mTo := tokenTo, style := style }))

/-- The comparison `(a, b) => a.from - b.from || a.to - b.to` of the final
sort. -/
def markLE (a b : HLMark) : Bool :=
  a.mFrom < b.mFrom || (a.mFrom = b.mFrom && a.mTo ≤ b.mTo)

/-- Embedding of `buildDecorations(view)` from
`highlighter/editor-extension.ts`.  The process-wide highlighter state is
passed explicitly (`getHighlighterState()`), as are the tokenizer, the
document lines and the visible viewport ranges of the view. -/
def buildDecorations (state : Option HighlighterStateModel)
    (tokenize : String → Option String → Bool → List Token)
    (docLines : List String) (visibleRanges : List (Nat × Nat)) : List HLMark :=
  match state with
  | none => []
  | some st =>
    if !st.active then []
    else
      let decorations :=
        (findCodeBlocks docLines).flatMap
          (blockMarks st.settings st.styleMap st.combinedOverrides (foregroundColor st)
            tokenize docLines visibleRanges)
      decorations.mergeSort markLE

/-- The per-instance state of the `ViewPlugin` class created by
`createHighlighterEditorExtension`: the `currentVersion` closure variable
and the `decorations` field. -/
structure EditorPluginModel where
  currentVersion : Nat
  decorations : List HLMark
deriving DecidableEq

/-- `incrementDecorationVersion()` applied to the module-global counter. -/
def incrementDecorationVersion (decorationVersion : Nat) : Nat :=
  decorationVersion + 1

/-- The `update(update)` method of the view plugin: rebuild (and latch the
global version) when the document changed, the viewport changed, or the
global `decorationVersion` differs from `currentVersion`; otherwise leave
the decoration set untouched.  The returned boolean records whether
`buildDecorations` ran. -/
def hlPluginUpdate (docChanged viewportChanged : Bool) (decorationVersion : Nat)
    (state : Option HighlighterStateModel)
    (tokenize : String → Option String → Bool → List Token)
    (docLines : List String) (visibleRanges : List (Nat × Nat))
    (m : EditorPluginModel) : EditorPluginModel × Bool :=
  let versionChanged := m.currentVersion != decorationVersion
  if docChanged || viewportChanged || versionChanged then
    ({ currentVersion := decorationVersion
       decorations := buildDecorations state tokenize docLines visibleRanges }, true)
  else (m, false)

/-! ## Code block decorations for the live editor (`src/widgets.ts`) -/

/-- `CodeBlocksSettings` from `src/settings.ts`. -/
structure CodeBlocksSettings where
  enabled : Bool
  showLineNumbers : Bool
  showCopyButton : Bool
  backgroundColor : String
  languages : CodeBlockLanguages
  customCSS : String
  ignoreLanguages : List String
  highlighter : HighlighterSettings
deriving DecidableEq

/-- JavaScript `a || b` on an optional string: the value when present and
non-empty (truthy), otherwise the fallback. -/
def orTruthy (o : Option String) (d : String) : String :=
  match o with
  | some s => if s = "" then d else s
  | none => d

/-- JavaScript `a || b` on two strings. -/
def orTruthyS (a b : String) : String :=
  if a = "" then b else a

/-- The constructor arguments of `CodeBlockHeaderWidget` (its rendered
DOM is the host's business; the widget is identified by its data). -/
structure CodeBlockHeaderWidgetData where
  params : CodeblockParameters
  langConfig : Option (String × CodeBlockLanguageConfig)
  icon : Option LanguageIcon
  settings : CodeBlocksSettings
  borderColor : String
deriving DecidableEq

/-- One decoration added by `buildCodeBlockDecorations`: a line decoration
with its attribute list, or the header widget with its `side`. -/
inductive CodeBlockDeco where
  | lineDeco : List (String × String) → CodeBlockDeco
  | widgetDeco : CodeBlockHeaderWidgetData → Int → CodeBlockDeco
deriving DecidableEq

/-- Pre-pass of `buildCodeBlockDecorations`: total content line count per
block, keyed by the 1-based line number of the block's opening fence.
Lines are quote-stripped and then `trimStart()`-ed before fence matching. -/
def blockLineCountsGo : List String → Nat → Option (Char × Nat × Nat) → List (Nat × Nat)
  | [], _, _ => []
  | line :: rest, i, st =>
    let fenceText := (stripQuoteLead line.data).dropWhile isJsSpace
    match st with
    | none =>
      match fenceOpenChar fenceText with
      | some fc => blockLineCountsGo rest (i + 1) (some (fc, i, 0))
      | none => blockLineCountsGo rest (i + 1) none
    | some (fc, start, cnt) =>
      if isClosingFence fc fenceText then
        (start, cnt) :: blockLineCountsGo rest (i + 1) none
      else blockLineCountsGo rest (i + 1) (some (fc, start, cnt + 1))

/-- `blockLineCounts.get(i) || 0`. -/
def lookupCount (m : List (Nat × Nat)) (i : Nat) : Nat :=
  match m.find? (fun e => e.1 = i) with
  | some e => e.2
  | none => 0

/-- The main-pass state of `buildCodeBlockDecorations` while inside a
block (`skipBlock`, `fenceChar`, `fenceLine`, `currentLang`,
`blockLineCount`, `blockLineNumbersEnabled`, `lineNumInBlock`). -/
structure WidgetScanState where
  skipBlock : Bool
  fenceChar : Char
  fenceLine : List Char
  currentLang : String
  blockLineCount : Nat
  lnEnabled : Option Bool
  lineNumInBlock : Nat
deriving DecidableEq

/-- The gutter width computed from a block's line count:
`max(2, String(count).length) + 1` in `em`. -/
def gutterWidthOf (blockLineCount : Nat) : String :=
  let maxDigits := max 2 (Nat.repr blockLineCount).length
  Nat.repr (maxDigits + 1) ++ "em"

/-- Main pass of `buildCodeBlockDecorations`: one output entry per
`builder.add(line.from, line.from, deco)`, keyed by the line-start offset.
Fence-open lines of non-ignored blocks get a fence-start line decoration
and the header widget; interior lines get a content-line decoration with
the running 1-based line number; closing lines get a fence-end decoration;
ignored blocks produce nothing at all. -/
def buildCodeBlockGo (settings : CodeBlocksSettings) (icons : List LanguageIcon)
    (counts : List (Nat × Nat)) :
    List String → Nat → Nat → Option WidgetScanState → List (Nat × CodeBlockDeco)
  | [], _, _, _ => []
  | line :: rest, i, pos, st =>
    let nextPos := pos + line.data.length + 1
    let fenceText := (stripQuoteLead line.data).dropWhile isJsSpace
    match st with
    | none =>
      match fenceOpenChar fenceText with
      | some fc =>
        let fenceLine := fenceText
        let params := parseCodeblockParameters (some ⟨fenceLine⟩)
        let currentLang := orTruthyS params.language ("unknown")
        let blockLineCount := lookupCount counts i
        let newState : WidgetScanState :=
          { skipBlock := false, fenceChar := fc, fenceLine := fenceLine
            currentLang := currentLang, blockLineCount := blockLineCount
            lnEnabled := params.lineNumbers.enabled, lineNumInBlock := 0 }
        if settings.ignoreLanguages.contains (⟨jsToLower currentLang.data⟩ : String) then
          buildCodeBlockGo settings icons counts rest (i + 1) nextPos
            (some { newState with skipBlock := true })
        else
          let langConfig := resolveLanguageConfig (some params.language) (some settings.languages)
          let icon :=
            match langConfig with
            | some nc =>
              match nc.2.icon with
              | some ic =>
                if ic = "" then none else getIconForLanguage (some ic) (some icons)
              | none => none
            | none => none
          let baseLanguageColor :=
            orTruthy (langConfig.bind (fun nc => nc.2.languageColor))
              (orTruthy (langConfig.bind (fun nc => nc.2.color)) ("#6c757d"))
          let languageColor := orTruthyS params.langColor baseLanguageColor
          let borderColor :=
            orTruthy (langConfig.bind (fun nc => nc.2.borderColor)) languageColor
          let startDeco := CodeBlockDeco.lineDeco
            [ ("class", ("sf-codeblock-fence-start sf-codeblock-lang-" ++ currentLang))
            , ("data-line-count", Nat.repr blockLineCount)
            , ("style", ("--sf-gutter-width: " ++ gutterWidthOf blockLineCount)) ]
          let headerDeco := CodeBlockDeco.widgetDeco
            { params := params, langConfig := langConfig, icon := icon
              settings := settings, borderColor := borderColor } 1
          (pos, startDeco) :: (pos, headerDeco) ::
            buildCodeBlockGo settings icons counts rest (i + 1) nextPos (some newState)
      | none => buildCodeBlockGo settings icons counts rest (i + 1) nextPos none
    | some s =>
      if isClosingFence s.fenceChar fenceText then
        if s.skipBlock then
          buildCodeBlockGo settings icons counts rest (i + 1) nextPos none
        else
          (pos, CodeBlockDeco.lineDeco
            [ ("class", ("sf-codeblock-fence-end sf-codeblock-lang-" ++ s.currentLang)) ]) ::
            buildCodeBlockGo settings icons counts rest (i + 1) nextPos none
      else if s.skipBlock then
        buildCodeBlockGo settings icons counts rest (i + 1) nextPos (some s)
      else
        let lineNum := s.lineNumInBlock + 1
        let lineClasses :=
          ("sf-codeblock-content-line sf-codeblock-lang-" ++ s.currentLang) ++
            (match s.lnEnabled with
             | some true => " sf-ln-enabled"
             | some false => " sf-ln-disabled"
             | none => "")
        (pos, CodeBlockDeco.lineDeco
          [ ("class", lineClasses)
          , ("data-line-num", Nat.repr lineNum)
          , ("style", ("--sf-gutter-width: " ++ gutterWidthOf s.blockLineCount)) ]) ::
          buildCodeBlockGo settings icons counts rest (i + 1) nextPos
            (some { s with lineNumInBlock := lineNum })

/-- Embedding of `buildCodeBlockDecorations(state, plugin)` from
`src/widgets.ts`.  The function reads only the editor state's document
(here its lines) and the plugin settings; the host icon registry
(`window.SFIconManager`) is an explicit parameter.  It has no viewport
input of any kind. -/
def buildCodeBlockDecorations (settings : CodeBlocksSettings)
    (icons : List LanguageIcon) (docLines : List String) : List (Nat × CodeBlockDeco) :=
  if !settings.enabled then []
  else
    let counts := blockLineCountsGo docLines 1 none
    buildCodeBlockGo settings icons counts docLines 1 0 none

/-- Structural prefix test on character lists (semantics of
`String.prototype.startsWith`). -/
def isStrPrefixOf : List Char → List Char → Bool
  | [], _ => true
  | _ :: _, [] => false
  | p :: ps, c :: cs => p = c && isStrPrefixOf ps cs

/-- Whether a decoration is a content-line decoration (its class attribute
starts with the content-line class). -/
def isContentLineDeco : CodeBlockDeco → Bool
  | CodeBlockDeco.lineDeco attrs =>
    attrs.any (fun a => a.1 = "class" && isStrPrefixOf ("sf-codeblock-content-line".data) a.2.data)
  | CodeBlockDeco.widgetDeco _ _ => false

/-- Whether a decoration is the header widget. -/
def isHeaderWidgetDeco : CodeBlockDeco → Bool
  | CodeBlockDeco.lineDeco _ => false
  | CodeBlockDeco.widgetDeco _ _ => true

/-! # Theorems -/

/-! ## General lemmas about the string primitives -/

theorem dropWhile_head?_false {α : Type} {p : α → Bool} {l : List α} {a : α}
    (h : (l.dropWhile p).head? = some a) : p a = false := by
  induction l with
  | nil => simp [List.dropWhile] at h
  | cons c cs ih =>
    by_cases hc : p c
    · rw [List.dropWhile_cons_of_pos hc] at h
      exact ih h
    · rw [List.dropWhile_cons_of_neg hc] at h
      simp at h
      subst h
      simpa using hc

theorem dropWhile_dropWhile_self (p : Char → Bool) (l : List Char) :
    (l.dropWhile p).dropWhile p = l.dropWhile p := by
  induction l with
  | nil => simp
  | cons c cs ih =>
    by_cases hc : p c
    · rw [List.dropWhile_cons_of_pos hc]
      exact ih
    · rw [List.dropWhile_cons_of_neg hc, List.dropWhile_cons_of_neg hc]

theorem rstrip_idem (l : List Char) : rstrip (rstrip l) = rstrip l := by
  unfold rstrip
  rw [List.reverse_reverse, dropWhile_dropWhile_self]

theorem mem_rstrip {c : Char} {l : List Char} (h : c ∈ rstrip l) : c ∈ l := by
  unfold rstrip at h
  rw [List.mem_reverse] at h
  have := (List.dropWhile_sublist isJsSpace).mem h
  rwa [List.mem_reverse] at this

theorem rstrip_getLast?_not_space {l : List Char} {c : Char}
    (h : (rstrip l).getLast? = some c) : isJsSpace c = false := by
  unfold rstrip at h
  rw [List.getLast?_reverse] at h
  exact dropWhile_head?_false h

theorem not_mem_splitOnChar (sep : Char) (l : List Char) :
    ∀ x ∈ splitOnChar sep l, sep ∉ x := by
  induction l with
  | nil =>
    intro x hx
    simp [splitOnChar] at hx
    simp [hx]
  | cons c cs ih =>
    intro x hx
    rw [splitOnChar] at hx
    by_cases hc : c = sep
    · rw [if_pos hc] at hx
      rcases List.mem_cons.mp hx with h | h
      · simp [h]
      · exact ih x h
    · rw [if_neg hc] at hx
      rcases hs : splitOnChar sep cs with _ | ⟨h1, t1⟩
      · rw [hs] at hx
        rcases List.mem_cons.mp hx with h | h
        · subst h
          intro hmem
          rcases List.mem_singleton.mp hmem with h
          exact hc h.symm
        · simp at h
      · rw [hs] at hx
        rcases List.mem_cons.mp hx with h | h
        · subst h
          intro hmem
          rcases List.mem_cons.mp hmem with h | h
          · exact hc h.symm
          · have : h1 ∈ splitOnChar sep cs := by rw [hs]; exact List.mem_cons_self _ _
            exact ih h1 this h
        · have : x ∈ splitOnChar sep cs := by rw [hs]; exact List.mem_cons_of_mem _ h
          exact ih x this

theorem splitOnChar_of_not_mem {sep : Char} {x : List Char} (h : sep ∉ x) :
    splitOnChar sep x = [x] := by
  induction x with
  | nil => rfl
  | cons c cs ih =>
    rw [splitOnChar]
    have hc : ¬c = sep := fun he => h (he ▸ List.mem_cons_self c cs)
    rw [if_neg hc, ih (fun hm => h (List.mem_cons_of_mem c hm))]

theorem splitOnChar_append_sep {sep : Char} {x r : List Char} (h : sep ∉ x) :
    splitOnChar sep (x ++ sep :: r) = x :: splitOnChar sep r := by
  induction x with
  | nil =>
    rw [List.nil_append, splitOnChar, if_pos rfl]
  | cons c cs ih =>
    have hc : ¬c = sep := fun he => h (he ▸ List.mem_cons_self c cs)
    rw [List.cons_append, splitOnChar, if_neg hc,
      ih (fun hm => h (List.mem_cons_of_mem c hm))]

theorem splitOnChar_joinNl {ls : List (List Char)} (hne : ls ≠ [])
    (h : ∀ x ∈ ls, '\n' ∉ x) : splitOnChar '\n' (joinNl ls) = ls := by
  induction ls with
  | nil => exact absurd rfl hne
  | cons x ls' ih =>
    match ls' with
    | [] =>
      rw [joinNl]
      exact splitOnChar_of_not_mem (h x (List.mem_cons_self _ _))
    | y :: ls'' =>
      rw [joinNl, splitOnChar_append_sep (h x (List.mem_cons_self _ _))]
      congr 1
      exact ih (by simp) (fun z hz => h z (List.mem_cons_of_mem x hz))

theorem replaceCrLf_of_no_crlf {l : List Char} (h : hasCrLf l = false) :
    replaceCrLf l = l := by
  induction l with
  | nil => rfl
  | cons c cs ih =>
    match cs with
    | [] => rfl
    | c2 :: rest =>
      rw [hasCrLf] at h
      rw [Bool.or_eq_false_iff] at h
      rw [replaceCrLf]
      have hpair : ¬(c = '\r' ∧ c2 = '\n') := by
        intro ⟨h1, h2⟩
        subst h1; subst h2
        simp at h
      rw [if_neg hpair]
      rw [ih h.2]

theorem hasCrLf_cons_cons (c1 c2 : Char) (rest : List Char) :
    hasCrLf (c1 :: c2 :: rest) = ((c1 = '\r' && c2 = '\n') || hasCrLf (c2 :: rest)) := rfl

theorem hasCrLf_cons_of_not_lf {c : Char} {l : List Char}
    (hnl : ∀ a ∈ l.head?, a ≠ '\n') (h : hasCrLf l = false) :
    hasCrLf (c :: l) = false := by
  match l with
  | [] => rfl
  | a :: rest =>
    rw [hasCrLf_cons_cons, Bool.or_eq_false_iff]
    refine ⟨?_, h⟩
    have : a ≠ '\n' := hnl a rfl
    simp [this]

theorem hasCrLf_append_line {x r : List Char}
    (hx : '\n' ∉ x) (hlast : ∀ c, x.getLast? = some c → isJsSpace c = false)
    (hr : hasCrLf ('\n' :: r) = false) : hasCrLf (x ++ '\n' :: r) = false := by
  induction x with
  | nil => simpa using hr
  | cons a x' ih =>
    have hx' : '\n' ∉ x' := fun hm => hx (List.mem_cons_of_mem a hm)
    match hx'' : x' with
    | [] =>
      have ha : isJsSpace a = false := by
        apply hlast
        rfl
      have hane : a ≠ '\r' := by
        intro he
        subst he
        simp [isJsSpace] at ha
      rw [List.cons_append, List.nil_append, hasCrLf_cons_cons, Bool.or_eq_false_iff]
      constructor
      · simp [hane]
      · exact hr
    | b :: x'' =>
      have hb : b ≠ '\n' := by
        intro he
        exact hx' (he ▸ List.mem_cons_self b x'')
      have hrec : hasCrLf (b :: x'' ++ '\n' :: r) = false := by
        apply ih hx'
        intro c hc
        apply hlast
        rw [List.getLast?_cons_cons]
        exact hc
      rw [List.cons_append, List.cons_append, hasCrLf_cons_cons, Bool.or_eq_false_iff]
      rw [List.cons_append] at hrec
      constructor
      · simp [hb]
      · exact hrec

theorem hasCrLf_cons_of_not_cr {c : Char} {l : List Char} (hc : c ≠ '\r')
    (h : hasCrLf l = false) : hasCrLf (c :: l) = false := by
  match l with
  | [] => rfl
  | a :: rest =>
    rw [hasCrLf_cons_cons, Bool.or_eq_false_iff]
    exact ⟨by simp [hc], h⟩

theorem hasCrLf_of_no_lf {x : List Char} (h : '\n' ∉ x) : hasCrLf x = false := by
  induction x with
  | nil => rfl
  | cons c cs ih =>
    match cs with
    | [] => rfl
    | a :: rest =>
      rw [hasCrLf_cons_cons, Bool.or_eq_false_iff]
      have ha : a ≠ '\n' := by
        intro he
        exact h (he ▸ List.mem_cons_of_mem c (List.mem_cons_self a rest))
      constructor
      · simp [ha]
      · exact ih (fun hm => h (List.mem_cons_of_mem c hm))

theorem hasCrLf_joinNl {ls : List (List Char)}
    (h : ∀ x ∈ ls, '\n' ∉ x ∧ ∀ c, x.getLast? = some c → isJsSpace c = false) :
    hasCrLf (joinNl ls) = false := by
  induction ls with
  | nil => rfl
  | cons x ls' ih =>
    match ls' with
    | [] =>
      rw [joinNl]
      exact hasCrLf_of_no_lf (h x (List.mem_cons_self _ _)).1
    | y :: ls'' =>
      rw [joinNl]
      apply hasCrLf_append_line (h x (List.mem_cons_self _ _)).1
        (h x (List.mem_cons_self _ _)).2
      apply hasCrLf_cons_of_not_cr (by decide)
      exact ih (fun z hz => h z (List.mem_cons_of_mem x hz))

theorem joinNl_getLast_lf : ∀ (ls : List (List Char)) (x : List Char), ls ≠ [] →
    ls.getLast? = some [] → (joinNl (x :: ls)).getLast? = some '\n'
  | [], _, hne, _ => absurd rfl hne
  | [y], x, _, hlast => by
    have hy : y = [] := by simpa using hlast
    subst hy
    rw [joinNl, joinNl]
    exact List.getLast?_concat x
  | y :: z :: ls', x, _, hlast => by
    have hrec : (joinNl (y :: z :: ls')).getLast? = some '\n' := by
      apply joinNl_getLast_lf (z :: ls') y (by simp)
      simpa using hlast
    rw [joinNl]
    have hne : ('\n' :: joinNl (y :: z :: ls')) ≠ [] := by simp
    rw [List.getLast?_append_of_ne_nil x hne]
    have hjne : joinNl (y :: z :: ls') ≠ [] := by
      intro he
      rw [he] at hrec
      simp at hrec
    have := List.getLast?_append_of_ne_nil ['\n'] hjne
    simp only [List.singleton_append] at this
    rw [this]
    exact hrec

theorem mem_dropLastEmptyLine {ls : List (List Char)} {x : List Char}
    (h : x ∈ dropLastEmptyLine ls) : x ∈ ls := by
  unfold dropLastEmptyLine at h
  split at h
  · exact (List.dropLast_sublist ls).mem h
  · exact h

theorem dropLastEmptyLine_of_getLast_ne {ls : List (List Char)}
    (h : ls.getLast? ≠ some []) : dropLastEmptyLine ls = ls := by
  unfold dropLastEmptyLine
  split
  · next heq => exact absurd heq h
  · rfl

theorem map_rstrip_fixed {ls : List (List Char)} (h : ∀ x ∈ ls, rstrip x = x) :
    ls.map rstrip = ls := by
  induction ls with
  | nil => rfl
  | cons x ls' ih =>
    rw [List.map_cons, h x (List.mem_cons_self _ _),
      ih (fun z hz => h z (List.mem_cons_of_mem x hz))]

theorem normalizeCodeContentL_idem (l : List Char)
    (h : (normalizeCodeContentL l).getLast? ≠ some '\n') :
    normalizeCodeContentL (normalizeCodeContentL l) = normalizeCodeContentL l := by
  have heq : normalizeCodeContentL l =
      joinNl ((dropLastEmptyLine (splitOnChar '\n' (replaceCrLf l))).map rstrip) := rfl
  set ls := (dropLastEmptyLine (splitOnChar '\n' (replaceCrLf l))).map rstrip with hls
  rw [heq] at h ⊢
  have hmem : ∀ x ∈ ls, '\n' ∉ x := by
    intro x hx
    rw [hls] at hx
    rcases List.mem_map.mp hx with ⟨y, hy, hxy⟩
    have hyno : '\n' ∉ y :=
      not_mem_splitOnChar '\n' (replaceCrLf l) y (mem_dropLastEmptyLine hy)
    intro hm
    exact hyno (mem_rstrip (hxy ▸ hm))
  have hfix : ∀ x ∈ ls, rstrip x = x := by
    intro x hx
    rw [hls] at hx
    rcases List.mem_map.mp hx with ⟨y, _, hxy⟩
    rw [← hxy]
    exact rstrip_idem y
  have hlastc : ∀ x ∈ ls, ∀ c, x.getLast? = some c → isJsSpace c = false := by
    intro x hx c hc
    rw [hls] at hx
    rcases List.mem_map.mp hx with ⟨y, _, hxy⟩
    exact rstrip_getLast?_not_space (hxy ▸ hc)
  clear_value ls
  by_cases hnil : ls = []
  · rw [hnil]
    rfl
  by_cases hse : ls = [[]]
  · rw [hse]
    rfl
  have hlastne : ls.getLast? ≠ some [] := by
    intro hl
    match ls, hnil with
    | x :: ls', _ =>
      match ls', hl with
      | [], hl =>
        have : x = [] := by simpa using hl
        exact hse (by rw [this])
      | y :: ls'', hl =>
        apply h
        apply joinNl_getLast_lf (y :: ls'') x (by simp)
        simpa using hl
  have hstep1 : replaceCrLf (joinNl ls) = joinNl ls :=
    replaceCrLf_of_no_crlf (hasCrLf_joinNl (fun x hx => ⟨hmem x hx, hlastc x hx⟩))
  show joinNl ((dropLastEmptyLine (splitOnChar '\n' (replaceCrLf (joinNl ls)))).map rstrip) =
    joinNl ls
  rw [hstep1, splitOnChar_joinNl hnil hmem, dropLastEmptyLine_of_getLast_ne hlastne,
    map_rstrip_fixed hfix]

/-! ## Claim C2: idempotence of `normalizeCodeContent`

The claim fails on the code: normalization pops only one trailing empty
line before right-trimming, so an input whose normal form still ends in a
newline (for example "a\n\n", whose normal form is "a\n") loses one more
character under a second application.  Idempotence holds exactly when the
first normal form does not end in a newline. -/

/-- Counterexample to claim C2 as stated: at the input "a\n\n" a second
`normalizeCodeContent` changes the result ("a\n" becomes "a"). -/
theorem normalizeCodeContent_not_idempotent_cex :
    normalizeCodeContent (some (normalizeCodeContent (some ("a\n\n")))) ≠
        normalizeCodeContent (some ("a\n\n")) ∧
      normalizeCodeContent (some ("a\n\n")) = "a\n" ∧
      normalizeCodeContent (some (normalizeCodeContent (some ("a\n\n")))) = "a" := by
  refine ⟨?_, ?_, ?_⟩ <;> decide

/-- Claim C2 (amended): `normalizeCodeContent` is idempotent on every
input whose normalized form does not end in a newline character; a second
application can only drop a trailing empty line, which exists exactly when
the normalized form ends in a newline. -/
theorem normalizeCodeContent_idem_of_no_trailing_newline (s : String)
    (h : (normalizeCodeContent (some s)).data.getLast? ≠ some '\n') :
    normalizeCodeContent (some (normalizeCodeContent (some s))) =
      normalizeCodeContent (some s) :=
  congrArg String.mk (normalizeCodeContentL_idem s.data h)

/-- Witness for the amended claim C2 at the concrete input "a\nb". -/
theorem normalizeCodeContent_idem_witness :
    (normalizeCodeContent (some ("a\nb"))).data.getLast? ≠ some '\n' ∧
      normalizeCodeContent (some (normalizeCodeContent (some ("a\nb")))) =
        normalizeCodeContent (some ("a\nb")) :=
  ⟨by decide, normalizeCodeContent_idem_of_no_trailing_newline ("a\nb") (by decide)⟩

/-! ## Field characterizations of `parseCodeblockParameters` -/

theorem searchFirst_nil {α : Type} (f : List Char → Option α) :
    searchFirst f [] = f [] := rfl

theorem parse_lineNumbers_eq (s : String) :
    (parseCodeblockParameters (some s)).lineNumbers =
      match searchFirst lnAt (trimmedFenceRest s) with
      | some LnVal.isTrue => { enabled := some true, offset := 1 }
      | some LnVal.isFalse => { enabled := some false, offset := 1 }
      | some (LnVal.num n) => { enabled := some true, offset := n }
      | none => { enabled := none, offset := 1 } := by
  by_cases hs : s = ""
  · subst hs
    rfl
  · simp only [parseCodeblockParameters, if_neg hs]
    by_cases ht : trimmedFenceRest s = []
    · rw [ht]
      rfl
    · simp only [if_neg ht]

theorem parse_highlights_eq (s : String) :
    (parseCodeblockParameters (some s)).highlights =
      match searchFirst hlAt (trimmedFenceRest s) with
      | some g => parseHighlights g
      | none => [] := by
  by_cases hs : s = ""
  · subst hs
    rfl
  · simp only [parseCodeblockParameters, if_neg hs]
    by_cases ht : trimmedFenceRest s = []
    · rw [ht]
      rfl
    · simp only [if_neg ht]

theorem parse_title_eq (s : String) :
    (parseCodeblockParameters (some s)).title =
      match searchFirst titleAt (trimmedFenceRest s) with
      | some t => (⟨t⟩ : String)
      | none => "" := by
  by_cases hs : s = ""
  · subst hs
    rfl
  · simp only [parseCodeblockParameters, if_neg hs]
    by_cases ht : trimmedFenceRest s = []
    · rw [ht]
      rfl
    · simp only [if_neg ht]

theorem parse_langColor_eq (s : String) :
    (parseCodeblockParameters (some s)).langColor =
      match searchFirst (colorAt ("lang-color".data)) (trimmedFenceRest s) with
      | some h => (⟨'#' :: h⟩ : String)
      | none => "" := by
  by_cases hs : s = ""
  · subst hs
    rfl
  · simp only [parseCodeblockParameters, if_neg hs]
    by_cases ht : trimmedFenceRest s = []
    · rw [ht]
      rfl
    · simp only [if_neg ht]

theorem parse_titleColor_eq (s : String) :
    (parseCodeblockParameters (some s)).titleColor =
      match searchFirst (colorAt ("title-color".data)) (trimmedFenceRest s) with
      | some h => (⟨'#' :: h⟩ : String)
      | none => "" := by
  by_cases hs : s = ""
  · subst hs
    rfl
  · simp only [parseCodeblockParameters, if_neg hs]
    by_cases ht : trimmedFenceRest s = []
    · rw [ht]
      rfl
    · simp only [if_neg ht]

theorem parse_language_eq (s : String) :
    (parseCodeblockParameters (some s)).language =
      (if (trimmedFenceRest s).takeWhile isLangChar ≠ [] then
        (⟨jsToLower ((trimmedFenceRest s).takeWhile isLangChar)⟩ : String)
      else "") := by
  by_cases hs : s = ""
  · subst hs
    rfl
  · simp only [parseCodeblockParameters, if_neg hs]
    by_cases ht : trimmedFenceRest s = []
    · rw [ht]
      rfl
    · simp only [if_neg ht]

/-! ## Claim C3: totality and defaults of `parseCodeblockParameters` -/

/-- Claim C3: the parser is total (it is a Lean function into
`CodeblockParameters`, so it returns a parameters object on every input
and cannot throw), null, undefined and empty fence lines give the
documented defaults, and every absent or malformed directive leaves its
field at the documented default (language "", title "", langColor "",
titleColor "", lineNumbers enabled-null offset-1, highlights []). -/
theorem parseCodeblockParameters_total_defaults :
    parseCodeblockParameters none = defaultCodeblockParameters ∧
    parseCodeblockParameters (some "") = defaultCodeblockParameters ∧
    (∀ s : String, trimmedFenceRest s = [] →
      parseCodeblockParameters (some s) = defaultCodeblockParameters) ∧
    (∀ s : String, (trimmedFenceRest s).takeWhile isLangChar = [] →
      (parseCodeblockParameters (some s)).language = "") ∧
    (∀ s : String, searchFirst titleAt (trimmedFenceRest s) = none →
      (parseCodeblockParameters (some s)).title = "") ∧
    (∀ s : String, searchFirst (colorAt ("lang-color".data)) (trimmedFenceRest s) = none →
      (parseCodeblockParameters (some s)).langColor = "") ∧
    (∀ s : String, searchFirst (colorAt ("title-color".data)) (trimmedFenceRest s) = none →
      (parseCodeblockParameters (some s)).titleColor = "") ∧
    (∀ s : String, searchFirst lnAt (trimmedFenceRest s) = none →
      (parseCodeblockParameters (some s)).lineNumbers = { enabled := none, offset := 1 }) ∧
    (∀ s : String, searchFirst hlAt (trimmedFenceRest s) = none →
      (parseCodeblockParameters (some s)).highlights = []) := by
  refine ⟨rfl, rfl, ?_, ?_, ?_, ?_, ?_, ?_, ?_⟩
  · intro s h
    by_cases hs : s = ""
    · subst hs
      rfl
    · simp only [parseCodeblockParameters, if_neg hs, h, if_pos]
  · intro s h
    rw [parse_language_eq, h]
    simp
  · intro s h
    rw [parse_title_eq, h]
  · intro s h
    rw [parse_langColor_eq, h]
  · intro s h
    rw [parse_titleColor_eq, h]
  · intro s h
    rw [parse_lineNumbers_eq, h]
  · intro s h
    rw [parse_highlights_eq, h]

/-- Witness for claim C3 at concrete inputs: "~~~~   " trims to nothing
and parses to all defaults; "\x60\x60\x60 @@@" has no language run and no
directive matches, so every field is at its default. -/
theorem parseCodeblockParameters_total_defaults_witness :
    trimmedFenceRest ("~~~~   ") = [] ∧
      parseCodeblockParameters (some ("~~~~   ")) = defaultCodeblockParameters ∧
      searchFirst lnAt (trimmedFenceRest ("``` @@@")) = none ∧
      (parseCodeblockParameters (some ("``` @@@"))).lineNumbers =
        { enabled := none, offset := 1 } ∧
      searchFirst hlAt (trimmedFenceRest ("``` @@@")) = none ∧
      (parseCodeblockParameters (some ("``` @@@"))).highlights = [] ∧
      searchFirst titleAt (trimmedFenceRest ("``` @@@")) = none ∧
      (parseCodeblockParameters (some ("``` @@@"))).title = "" :=
  ⟨by decide,
    parseCodeblockParameters_total_defaults.2.2.1 ("~~~~   ") (by decide),
    by decide,
    parseCodeblockParameters_total_defaults.2.2.2.2.2.2.2.1 ("``` @@@") (by decide),
    by decide,
    parseCodeblockParameters_total_defaults.2.2.2.2.2.2.2.2 ("``` @@@") (by decide),
    by decide,
    parseCodeblockParameters_total_defaults.2.2.2.2.1 ("``` @@@") (by decide)⟩

/-! ## Claim C4: the `ln` and `hl` directive mappings -/

/-- Claim C4: a matched `ln:<digits>` yields enabled-true with the parsed
offset, `ln:false` yields enabled-false offset-1, absent `ln` yields
enabled-null offset-1; a matched `hl:1,3-5,7` yields highlights
[1,3,4,5,7] in that order; a range expands inclusively, iterating
ascending from its left to its right bound (empty when descending), and
malformed pairs such as "3-", "-5" contribute nothing. -/
theorem parse_ln_hl_directives :
    (∀ (s : String) (n : Int),
      searchFirst lnAt (trimmedFenceRest s) = some (LnVal.num n) →
        (parseCodeblockParameters (some s)).lineNumbers = { enabled := some true, offset := n }) ∧
    (∀ s : String, searchFirst lnAt (trimmedFenceRest s) = some LnVal.isFalse →
      (parseCodeblockParameters (some s)).lineNumbers = { enabled := some false, offset := 1 }) ∧
    (∀ s : String, searchFirst lnAt (trimmedFenceRest s) = none →
      (parseCodeblockParameters (some s)).lineNumbers = { enabled := none, offset := 1 }) ∧
    (∀ s : String, searchFirst hlAt (trimmedFenceRest s) = some ("1,3-5,7".data) →
      (parseCodeblockParameters (some s)).highlights = [1, 3, 4, 5, 7]) ∧
    (∀ a b : Int,
      (a ≤ b → expandRange a b = a :: expandRange (a + 1) b) ∧
      (b < a → expandRange a b = [])) ∧
    expandHlPart ("3-".data) = [] ∧
    expandHlPart ("-5".data) = [] ∧
    expandHlPart ("5-3".data) = [] := by
  refine ⟨?_, ?_, ?_, ?_, ?_, by decide, by decide, by decide⟩
  · intro s n h
    rw [parse_lineNumbers_eq, h]
  · intro s h
    rw [parse_lineNumbers_eq, h]
  · intro s h
    rw [parse_lineNumbers_eq, h]
  · intro s h
    rw [parse_highlights_eq, h]
    decide
  · intro a b
    constructor
    · intro hab
      unfold expandRange
      have h1 : (b + 1 - a).toNat = (b + 1 - (a + 1)).toNat + 1 := by omega
      rw [h1, List.range_succ_eq_map, List.map_cons, List.map_map]
      congr 1
      · simp
      · apply List.map_congr_left
        intro x _
        simp only [Function.comp_apply]
        push_cast
        ring
    · intro hba
      unfold expandRange
      have h0 : (b + 1 - a).toNat = 0 := by omega
      rw [h0]
      rfl

/-- Witness for claim C4 at concrete fence lines: "\x60\x60\x60python
ln:5" (offset 5), "ln:false", absent `ln`, "hl:1,3-5,7", and the range
3-5 with its ascending step. -/
theorem parse_ln_hl_directives_witness :
    searchFirst lnAt (trimmedFenceRest ("```python ln:5")) = some (LnVal.num 5) ∧
      (parseCodeblockParameters (some ("```python ln:5"))).lineNumbers =
        { enabled := some true, offset := 5 } ∧
      searchFirst lnAt (trimmedFenceRest ("```python ln:false")) = some LnVal.isFalse ∧
      (parseCodeblockParameters (some ("```python ln:false"))).lineNumbers =
        { enabled := some false, offset := 1 } ∧
      searchFirst lnAt (trimmedFenceRest ("```python")) = none ∧
      (parseCodeblockParameters (some ("```python"))).lineNumbers =
        { enabled := none, offset := 1 } ∧
      searchFirst hlAt (trimmedFenceRest ("```python hl:1,3-5,7")) = some ("1,3-5,7".data) ∧
      (parseCodeblockParameters (some ("```python hl:1,3-5,7"))).highlights = [1, 3, 4, 5, 7] ∧
      (3 : Int) ≤ 5 ∧ expandRange 3 5 = 3 :: expandRange 4 5 :=
  ⟨by decide,
    parse_ln_hl_directives.1 ("```python ln:5") 5 (by decide),
    by decide,
    parse_ln_hl_directives.2.1 ("```python ln:false") (by decide),
    by decide,
    parse_ln_hl_directives.2.2.1 ("```python") (by decide),
    by decide,
    parse_ln_hl_directives.2.2.2.1 ("```python hl:1,3-5,7") (by decide),
    by decide,
    (parse_ln_hl_directives.2.2.2.2.1 3 5).1 (by decide)⟩

/-! ## Claim C10: directive keys match as unanchored substrings -/

/-- Claim C10: directive keys are found by unanchored substring search,
not at token boundaries.  On the fence line "\x60\x60\x60c shl:2" the key
`hl:` occurs only as a proper suffix of the longer token "shl:2", yet the
parser applies the directive: the highlights become [2] (and the language
is "c", so the match did not come from the language token either). -/
theorem parse_substring_directive_match :
    searchFirst hlAt (trimmedFenceRest ("```c shl:2")) = some ("2".data) ∧
      (parseCodeblockParameters (some ("```c shl:2"))).highlights = [2] ∧
      (parseCodeblockParameters (some ("```c shl:2"))).language = "c" := by
  refine ⟨by decide, by decide, by decide⟩

/-! ## Claim C9: the empty-target early return of the fence locator

The early return fires exactly when the normalized target is the empty
string.  The claim's characterization of that set is wrong: code text
consisting only of two or more blank lines normalizes to a non-empty
string of newlines (the normalizer pops only one trailing empty line), and
such a target can even match a block exactly. -/

/-- Counterexample to claim C9 as stated: the code text "\n\n" consists
only of blank lines, yet the locator does not return null on it — the
document's only block (three empty content lines, normalized content
"\n") is an exact match and its fence line is returned. -/
theorem findFence_blank_lines_cex :
    normalizeCodeContent (some ("\n\n")) = "\n" ∧
      findFenceLineForCodeBlock (some ("```\n\n\n\n```")) (some ("\n\n")) none none =
        some "```" := by
  refine ⟨by decide, by decide⟩

/-- Claim C9 (amended): the locator returns null whenever the normalized
target content is the empty string (code text null, empty, a single
whitespace-only line, or whitespace-only content with one final newline),
even if the document contains a fenced block with empty content; blank
multi-line code text is not in this set. -/
theorem findFence_null_on_empty_target (sectionText codeText language : Option String)
    (codeBlockLanguages : Option CodeBlockLanguages)
    (h : normalizeCodeContent codeText = "") :
    findFenceLineForCodeBlock sectionText codeText language codeBlockLanguages = none := by
  match sectionText with
  | none => rfl
  | some sec =>
    simp only [findFenceLineForCodeBlock]
    by_cases hs : sec = ""
    · rw [if_pos hs]
    · rw [if_neg hs, h]
      simp

/-- Witness for the amended claim C9: whitespace-only code text
normalizes to the empty string and the locator returns null on it, even
though the document contains a block with empty normalized content. -/
theorem findFence_null_on_empty_target_witness :
    normalizeCodeContent (some ("   ")) = "" ∧
      findFenceLineForCodeBlock (some ("```js\n\n```")) (some ("   ")) none none = none :=
  ⟨by decide,
    findFence_null_on_empty_target (some ("```js\n\n```")) (some ("   ")) none none
      (by decide)⟩

/-! ## Claim C7: version-gated rebuild of the live-editor decoration set -/

/-- Claim C7: after incrementing the global decoration version, the next
update with unchanged document and viewport rebuilds the decoration set
(the `decorations` field is freshly built and the rebuild flag is true);
with unchanged version, document and viewport the previously built
decoration set value is left in place and nothing is rebuilt. -/
theorem hlPluginUpdate_version_gated (v : Nat) (d : List HLMark)
    (state : Option HighlighterStateModel)
    (tokenize : String → Option String → Bool → List Token)
    (docLines : List String) (visibleRanges : List (Nat × Nat)) :
    hlPluginUpdate false false (incrementDecorationVersion v) state tokenize docLines
        visibleRanges { currentVersion := v, decorations := d } =
      ({ currentVersion := v + 1
         decorations := buildDecorations state tokenize docLines visibleRanges }, true) ∧
    hlPluginUpdate false false v state tokenize docLines visibleRanges
        { currentVersion := v, decorations := d } =
      ({ currentVersion := v, decorations := d }, false) := by
  constructor
  · simp [hlPluginUpdate, incrementDecorationVersion]
  · simp [hlPluginUpdate]

/-! ## Claim C8: `updateSettings` recompute condition and synchronous notification -/

/-- Claim C8: `updateSettings` recomputes `styleMap` and
`combinedOverrides` if and only if the patch carries a theme different
from the current one (they are recomputed from the new theme in that case
and left untouched otherwise), and it synchronously notifies exactly the
subscribed listeners on every call, as do `start`, `stop` and `reload`
(which additionally fires the reload callbacks). -/
theorem highlighterState_updateSettings_spec (p : HighlighterSettingsPatch)
    (s : HighlighterStateModel) :
    (∀ t : HighlighterTheme, p.theme = some t → t ≠ s.settings.theme →
      (hsUpdateSettings p s).1.styleMap = getStyleMap t ∧
        (hsUpdateSettings p s).1.combinedOverrides = getCombinedOverrides t) ∧
    (p.theme = none ∨ p.theme = some s.settings.theme →
      (hsUpdateSettings p s).1.styleMap = s.styleMap ∧
        (hsUpdateSettings p s).1.combinedOverrides = s.combinedOverrides) ∧
    (hsUpdateSettings p s).2 = s.listeners ∧
    (hsStart s).2 = s.listeners ∧
    (hsStop s).2 = s.listeners ∧
    (hsReload s).2.1 = s.listeners ∧
    (hsReload s).2.2 = s.reloadCallbacks := by
  refine ⟨?_, ?_, rfl, rfl, rfl, rfl, rfl⟩
  · intro t ht hne
    constructor <;> simp [hsUpdateSettings, ht, hne, mergeSettings]
  · intro hcase
    rcases hcase with h | h
    · constructor <;> simp [hsUpdateSettings, h]
    · constructor <;> simp [hsUpdateSettings, h]

/-- Witness for claim C8: updating the default-constructed state with a
patch carrying the dracula theme recomputes the style tables for dracula
and notifies the (empty) listener list; a theme-free patch leaves the
tables untouched. -/
theorem highlighterState_updateSettings_witness :
    (({ theme := some HighlighterTheme.dracula } : HighlighterSettingsPatch)).theme =
        some HighlighterTheme.dracula ∧
      HighlighterTheme.dracula ≠
        (mkHighlighterState DEFAULT_HIGHLIGHTER_SETTINGS).settings.theme ∧
      (hsUpdateSettings { theme := some HighlighterTheme.dracula }
          (mkHighlighterState DEFAULT_HIGHLIGHTER_SETTINGS)).1.styleMap =
        getStyleMap HighlighterTheme.dracula ∧
      (hsUpdateSettings { autoDetect := some true }
          (mkHighlighterState DEFAULT_HIGHLIGHTER_SETTINGS)).1.styleMap =
        (mkHighlighterState DEFAULT_HIGHLIGHTER_SETTINGS).styleMap :=
  ⟨rfl, by decide,
    ((highlighterState_updateSettings_spec { theme := some HighlighterTheme.dracula }
        (mkHighlighterState DEFAULT_HIGHLIGHTER_SETTINGS)).1 HighlighterTheme.dracula rfl
      (by decide)).1,
    ((highlighterState_updateSettings_spec { autoDetect := some true }
        (mkHighlighterState DEFAULT_HIGHLIGHTER_SETTINGS)).2.1 (Or.inl rfl)).1⟩

/-! ## Claim C5: callout fence extraction -/

theorem extractCalloutGo_reset {lines : List (List Char)} (st : Option FenceBlockState)
    (h : ∀ a, lines.head? = some a → isCalloutLine a = false) :
    extractCalloutGo lines st = extractCalloutGo lines none := by
  match lines with
  | [] => rfl
  | a :: t =>
    have ha : isCalloutLine a = false := h a rfl
    rw [extractCalloutGo, extractCalloutGo]
    rw [ha]
    simp

theorem extractCalloutGo_quote_run :
    ∀ (qs after : List (List Char)) (st : Option FenceBlockState),
      (∀ x ∈ qs, isCalloutLine x = true) →
      (∀ a, after.head? = some a → isCalloutLine a = false) →
      extractCalloutGo (qs ++ after) st =
        plainFenceScan (qs.map stripQuoteLead) st ++ extractCalloutGo after none := by
  intro qs
  induction qs with
  | nil =>
    intro after st _ hafter
    rw [List.nil_append, List.map_nil, plainFenceScan.eq_1, List.nil_append]
    exact extractCalloutGo_reset st hafter
  | cons q qs' ih =>
    intro after st hq hafter
    have hcq : isCalloutLine q = true := hq q (List.mem_cons_self _ _)
    have hq' : ∀ x ∈ qs', isCalloutLine x = true :=
      fun x hx => hq x (List.mem_cons_of_mem q hx)
    rw [List.cons_append, List.map_cons]
    match st with
    | none =>
      simp only [extractCalloutGo.eq_2, plainFenceScan.eq_2, hcq, Bool.not_true,
        Bool.false_eq_true, if_false]
      match hfo : fenceOpenChar (stripQuoteLead q) with
      | some fc =>
        simp only [hfo]
        exact ih after _ hq' hafter
      | none =>
        simp only [hfo]
        exact ih after _ hq' hafter
    | some b =>
      simp only [extractCalloutGo.eq_2, plainFenceScan.eq_3, hcq, Bool.not_true,
        Bool.false_eq_true, if_false]
      by_cases hcl : isClosingFence b.fenceChar (stripQuoteLead q)
      · simp only [hcl, if_true]
        rw [List.cons_append]
        congr 1
        exact ih after _ hq' hafter
      · simp only [hcl, Bool.false_eq_true, if_false]
        exact ih after _ hq' hafter

theorem extractCalloutGo_eq_runs :
    ∀ (n : Nat) (lines : List (List Char)), lines.length ≤ n →
      extractCalloutGo lines none = ((quoteRuns lines).map runEntries).flatten := by
  intro n
  induction n with
  | zero =>
    intro lines hlen
    have : lines = [] := List.length_eq_zero.mp (Nat.le_zero.mp hlen)
    subst this
    rw [quoteRuns.eq_1]
    rfl
  | succ n ih =>
    intro lines hlen
    match lines with
    | [] =>
      rw [quoteRuns.eq_1]
      rfl
    | l :: rest =>
      by_cases hc : isCalloutLine l
      · rw [quoteRuns.eq_2, if_pos hc, List.map_cons, List.flatten_cons]
        have hdecomp : l :: rest =
            (l :: rest.takeWhile isCalloutLine) ++ rest.dropWhile isCalloutLine := by
          rw [List.cons_append, List.takeWhile_append_dropWhile]
        rw [hdecomp]
        rw [extractCalloutGo_quote_run (l :: rest.takeWhile isCalloutLine)
          (rest.dropWhile isCalloutLine) none
          (by
            intro x hx
            rcases List.mem_cons.mp hx with h | h
            · subst h
              exact hc
            · exact List.mem_takeWhile_imp h)
          (fun a ha => dropWhile_head?_false ha)]
        congr 1
        have hlen' : (rest.dropWhile isCalloutLine).length ≤ n := by
          have h1 := List.Sublist.length_le (List.dropWhile_sublist (l := rest) isCalloutLine)
          simp only [List.length_cons] at hlen
          omega
        exact ih (rest.dropWhile isCalloutLine) hlen'
      · have hstep : extractCalloutGo (l :: rest) none = extractCalloutGo rest none := by
          rw [extractCalloutGo.eq_2]
          rw [eq_false_of_ne_true hc]
          simp
        rw [hstep, quoteRuns.eq_2, if_neg hc]
        apply ih rest
        simp only [List.length_cons] at hlen
        omega

/-- Claim C5: `extractCalloutFenceEntries` returns exactly the fenced
blocks that open and close within one contiguous run of quote-prefixed
lines, in document order, with quote markers stripped from the stored
fence line and from every content line; a block interrupted by a
non-quote line or never closed is silently dropped, and the closing fence
must use the opening fence's character (all of which the run-wise
specification extractor `specExtractCalloutFenceEntries` expresses); on
the concrete blockquote of the spec the extractor yields the single
fully-stripped entry. -/
theorem extractCalloutFenceEntries_spec :
    (∀ text : Option String,
      extractCalloutFenceEntries text = specExtractCalloutFenceEntries text) ∧
    extractCalloutFenceEntries (some ("> ```python\n> code\n> ```")) =
      [{ fenceLine := "```python", content := "code" }] ∧
    extractCalloutFenceEntries (some ("> ```python\n> code\nplain\n> ```")) = [] := by
  refine ⟨?_, by decide, by decide⟩
  intro text
  match text with
  | none => rfl
  | some s =>
    by_cases hs : s = ""
    · subst hs
      rfl
    · simp only [extractCalloutFenceEntries, specExtractCalloutFenceEntries, if_neg hs]
      rw [extractCalloutGo_eq_runs (splitOnChar '\n' s.data).length _ (Nat.le_refl _)]

/-! ## Claim C1: the fence locator's match policy -/

theorem specFindFenceAux_nil (t tl ts : List Char) (lo : List Char → Bool)
    (cands : List (List Char)) :
    specFindFenceAux t tl ts lo [] cands =
      if cands.length = 1 then cands.head? else none := by
  simp [specFindFenceAux]

theorem specFindFenceAux_cons_pos (t tl ts : List Char) (lo : List Char → Bool)
    {blk : List Char × List Char} (bs : List (List Char × List Char))
    (cands : List (List Char)) (h : isExactBlock t tl lo blk = true) :
    specFindFenceAux t tl ts lo (blk :: bs) cands = some blk.1 := by
  unfold specFindFenceAux
  rw [List.find?_cons_of_pos _ h]

theorem specFindFenceAux_cons_neg (t tl ts : List Char) (lo : List Char → Bool)
    {blk : List Char × List Char} (bs : List (List Char × List Char))
    (cands : List (List Char)) (h : isExactBlock t tl lo blk = false) :
    specFindFenceAux t tl ts lo (blk :: bs) cands =
      specFindFenceAux t tl ts lo bs (cands ++ (sigCandidate ts lo blk).toList) := by
  unfold specFindFenceAux
  rw [List.find?_cons_of_neg _ (by simp [h])]
  cases hfind : bs.find? (isExactBlock t tl lo) with
  | some blk' => rfl
  | none =>
    simp only [List.filterMap_cons]
    cases hsig : sigCandidate ts lo blk with
    | some c => simp [List.append_assoc]
    | none => simp

theorem findFenceGo_eq_specAux (t tl ts : List Char) (lo : List Char → Bool) :
    ∀ (lines : List (List Char)) (st : Option FenceBlockState) (cands : List (List Char)),
      findFenceGo t tl ts lo lines st cands =
        specFindFenceAux t tl ts lo (closedBlocksGo lines st) cands := by
  intro lines
  induction lines with
  | nil =>
    intro st cands
    rw [findFenceGo.eq_1, closedBlocksGo.eq_1, specFindFenceAux_nil]
  | cons line rest ih =>
    intro st cands
    match st with
    | none =>
      rw [findFenceGo.eq_2, closedBlocksGo.eq_2]
      match hfo : fenceOpenChar (stripQuoteLead line) with
      | some fc =>
        simp only [hfo]
        exact ih _ _
      | none =>
        simp only [hfo]
        exact ih _ _
    | some b =>
      rw [findFenceGo.eq_3, closedBlocksGo.eq_3]
      by_cases hcl : isClosingFence b.fenceChar (stripQuoteLead line)
      · simp only [hcl, if_true]
        have hexact :
            ((normalizeCodeContentL (joinNl b.contentLines) = t ||
              normalizeCodeContentLooseL (joinNl b.contentLines) = tl) &&
                lo b.fenceLine) =
              isExactBlock t tl lo (b.fenceLine, joinNl b.contentLines) := rfl
        rw [hexact]
        by_cases hex : isExactBlock t tl lo (b.fenceLine, joinNl b.contentLines)
        · rw [if_pos hex, specFindFenceAux_cons_pos t tl ts lo _ cands hex]
        · rw [if_neg hex,
            specFindFenceAux_cons_neg t tl ts lo _ cands (eq_false_of_ne_true hex)]
          rw [ih]
          congr 1
          rw [sigCandidate]
          by_cases hts : ts ≠ []
          · rw [if_pos hts, if_pos hts]
            by_cases hsig :
                ((!(signatureOfL (normalizeCodeContentL (joinNl b.contentLines))).isEmpty) &&
                  signatureOfL (normalizeCodeContentL (joinNl b.contentLines)) = ts &&
                    lo b.fenceLine)
            · rw [if_pos hsig, if_pos hsig]
              rfl
            · rw [if_neg hsig, if_neg hsig]
              simp
          · rw [if_neg hts, if_neg hts]
            simp
      · simp only [hcl, Bool.false_eq_true, if_false]
        exact ih _ _

/-- Claim C1: for every source text, code text, optional language filter
and alias table, `findFenceLineForCodeBlock` equals the specification
locator `specFindFenceLineForCodeBlock`: it returns the fence line of the
first scanned closed block whose normalized or loose-normalized content
equals the target's with matching language (an exact match wins outright
over all recorded candidates and short-circuits the scan), otherwise the
unique recorded signature candidate (a candidate is recorded when the
target signature and the block's signature are non-empty, equal, and the
language matches), and null at zero or several candidates.  In
particular, on a document with two blocks of identical two-line signature
but different content and a target matching neither exactly it returns
null, while a single signature candidate is returned. -/
theorem findFenceLineForCodeBlock_spec :
    (∀ (sectionText codeText language : Option String)
        (codeBlockLanguages : Option CodeBlockLanguages),
      findFenceLineForCodeBlock sectionText codeText language codeBlockLanguages =
        specFindFenceLineForCodeBlock sectionText codeText language codeBlockLanguages) ∧
    findFenceLineForCodeBlock (some ("```\nfoo\nbar\nbaz1\n```\nmid\n```\nfoo\nbar\nbaz2\n```"))
        (some ("foo\nbar\nqux")) none none = none ∧
    findFenceLineForCodeBlock (some ("```\nfoo\nbar\nbaz1\n```"))
        (some ("foo\nbar\nqux")) none none = some "```" := by
  refine ⟨?_, by decide, by decide⟩
  intro sectionText codeText language codeBlockLanguages
  match sectionText with
  | none => rfl
  | some sec =>
    simp only [findFenceLineForCodeBlock, specFindFenceLineForCodeBlock]
    by_cases hs : sec = ""
    · rw [if_pos hs, if_pos hs]
    · rw [if_neg hs, if_neg hs]
      by_cases ht : (normalizeCodeContent codeText).data = []
      · rw [if_pos ht, if_pos ht]
      · rw [if_neg ht, if_neg ht]
        rw [findFenceGo_eq_specAux]
        rfl

/-! ## Claim C6: viewport filtering of the live-editor builders

The per-line/header builder `buildCodeBlockDecorations` takes no viewport
input at all (it is a function of document and settings only), so blocks
outside every visible range still receive their content-line decorations
and header widget; the claim as stated is false.  Viewport filtering does
exist, but in the highlighter extension's mark builder `buildDecorations`,
which emits inline token marks only for blocks intersecting a visible
range. -/

/-- Counterexample to claim C6 as stated: instantiated at a document with
one code block and an empty viewport (no visible ranges, so the block is
entirely outside the viewport), the claim asserts that no content-line
decoration and no header widget is produced; `buildCodeBlockDecorations`,
which has no viewport input, produces both. -/
theorem buildCodeBlockDecorations_viewport_cex :
    ((buildCodeBlockDecorations
        { enabled := true, showLineNumbers := true, showCopyButton := true
          backgroundColor := "", languages := [], customCSS := ""
          ignoreLanguages := [], highlighter := DEFAULT_HIGHLIGHTER_SETTINGS }
        [] ["```js", "x", "```"]).all
      (fun d => !(isContentLineDeco d.2 || isHeaderWidgetDeco d.2))) = false := by
  set_option maxRecDepth 4096 in decide

theorem mem_blockMarks {settings : HighlighterSettings}
    {styleMap : List (String × TokenStyle)}
    {combinedOverrides : List (List String × TokenStyle)} {fg : String}
    {tokenize : String → Option String → Bool → List Token}
    {docLines : List String} {visibleRanges : List (Nat × Nat)}
    {block : HLCodeBlock} {m : HLMark}
    (h : m ∈ blockMarks settings styleMap combinedOverrides fg tokenize docLines
      visibleRanges block) :
    blockVisible visibleRanges block = true ∧
      block.contentFrom ≤ m.mFrom ∧ m.mTo ≤ block.contentTo := by
  unfold blockMarks at h
  by_cases h1 : (block.language = none && !settings.autoDetect)
  · rw [if_pos h1] at h
    simp at h
  · rw [if_neg h1] at h
    by_cases h2 : blockVisible visibleRanges block
    · refine ⟨h2, ?_⟩
      rw [h2] at h
      simp only [Bool.not_true, Bool.false_eq_true, if_false] at h
      by_cases h3 : sliceDoc docLines block.contentFrom block.contentTo = ""
      · rw [if_pos h3] at h
        simp at h
      · rw [if_neg h3] at h
        rcases List.mem_cons.mp h with hfg | htok
        · subst hfg
          exact ⟨Nat.le_refl _, Nat.le_refl _⟩
        · rcases List.mem_filterMap.mp htok with ⟨token, _, hf⟩
          by_cases hc1 : block.contentFrom + token.offset + token.length ≤
              block.contentFrom + token.offset
          · rw [if_pos hc1] at hf
            simp at hf
          · rw [if_neg hc1] at hf
            by_cases hc2 : block.contentTo < block.contentFrom + token.offset + token.length
            · rw [if_pos hc2] at hf
              simp at hf
            · rw [if_neg hc2] at hf
              rcases Option.map_eq_some'.mp hf with ⟨style, _, hm⟩
              subst hm
              simp only
              omega
    · rw [eq_false_of_ne_true h2] at h
      simp at h

theorem mem_buildDecorations_active {st : HighlighterStateModel}
    {tokenize : String → Option String → Bool → List Token}
    {docLines : List String} {visibleRanges : List (Nat × Nat)} {m : HLMark}
    (ha : st.active = true) :
    m ∈ buildDecorations (some st) tokenize docLines visibleRanges ↔
      m ∈ (findCodeBlocks docLines).flatMap
        (blockMarks st.settings st.styleMap st.combinedOverrides (foregroundColor st)
          tokenize docLines visibleRanges) := by
  simp [buildDecorations, ha, List.mem_mergeSort]

/-- Claim C6 (amended): in the live editor, viewport filtering applies to
the highlighter's inline token marks, not to the per-line/header
decorations: every mark emitted by `buildDecorations` lies inside the
content range of a code block that intersects at least one currently
visible range (blocks entirely outside the viewport contribute no marks),
while `buildCodeBlockDecorations` — the builder of fence-line classes,
content-line decorations and header widgets — has no viewport input and
decorates every non-ignored block regardless of visibility. -/
theorem buildDecorations_viewport_filter
    (state : Option HighlighterStateModel)
    (tokenize : String → Option String → Bool → List Token)
    (docLines : List String) (visibleRanges : List (Nat × Nat)) (m : HLMark)
    (hm : m ∈ buildDecorations state tokenize docLines visibleRanges) :
    ∃ b ∈ findCodeBlocks docLines, blockVisible visibleRanges b = true ∧
      b.contentFrom ≤ m.mFrom ∧ m.mTo ≤ b.contentTo := by
  match state with
  | none => simp [buildDecorations] at hm
  | some st =>
    by_cases ha : st.active
    · rw [mem_buildDecorations_active ha] at hm
      rcases List.mem_flatMap.mp hm with ⟨b, hb, hmb⟩
      exact ⟨b, hb, mem_blockMarks hmb⟩
    · simp [buildDecorations, eq_false_of_ne_true ha] at hm

/-- Witness for the amended claim C6: on a one-block document with the
block visible, the foreground mark over the content range is emitted and
the theorem locates its visible block. -/
theorem buildDecorations_viewport_filter_witness :
    ({ mFrom := 6, mTo := 7, style := "color: #c1c0c0" } : HLMark) ∈
        buildDecorations
          (some (hsStart (mkHighlighterState
            { enabled := true, autoDetect := false,
              theme := HighlighterTheme.monokaiPro })).1)
          (fun _ _ _ => []) ["```js", "x", "```"] [(0, 100)] ∧
      ∃ b ∈ findCodeBlocks ["```js", "x", "```"],
        blockVisible [(0, 100)] b = true ∧ b.contentFrom ≤ 6 ∧ 7 ≤ b.contentTo := by
  have hmem : ({ mFrom := 6, mTo := 7, style := "color: #c1c0c0" } : HLMark) ∈
      buildDecorations
        (some (hsStart (mkHighlighterState
          { enabled := true, autoDetect := false,
            theme := HighlighterTheme.monokaiPro })).1)
        (fun _ _ _ => []) ["```js", "x", "```"] [(0, 100)] := by
    rw [mem_buildDecorations_active rfl]
    decide
  exact ⟨hmem, buildDecorations_viewport_filter _ _ _ _ _ hmem⟩
